import Mathlib

/-!
Verification of `file_organizer_enhanced.py` (ai_office_tool_demo_enhanced).

The program organizes the regular files directly inside a target folder into
subfolders named after each file's lowercase extension, records the moves in a
timestamped JSON history file under the reserved log subdirectory
`.aioffice_logs`, and supports undoing the most recent active history.

Shallow embedding conventions:
* Paths are modelled structurally, as lists of name components relative to the
  target folder (`[]` is the folder itself).  The folder's absolute path is
  carried as an abstract `String` where the source consults it textually (the
  `fpath.startswith(os.path.join(folder, LOGS_DIR))` test in the scan loop).
  The model assumes the folder's own absolute path does not contain the
  substring `history_`, so that Python's `history_file.replace("history_",
  "undone_")` (applied to the absolute path) only rewrites the file name; the
  rewrite is therefore modelled on the file name.
* The filesystem is a list of (path, content) file entries plus a list of
  existing directories.  File contents matter only insofar as the program
  parses them as JSON action lists: `Content.json acts` is a file holding a
  well-formed serialized action list, `Content.blob` any other byte content
  (on which `json.load` raises).
* Exceptions that the source does not catch are modelled as explicit error
  outcomes (`Except.error` / `UndoOutcome.parseRaised`); exceptions the source
  catches with `try/except` are absorbed exactly where the handler sits.
  Environmental failures (permission errors etc.) of a `shutil.move` call are
  modelled by an oracle `Nat → Bool` indexed by the position of the move in
  its batch: `oracle i = true` means the i-th call raises.
* `os.listdir` order is unspecified by the OS; the model's listing order is
  the entry order of the state, and no theorem depends on a particular order.
* Moving a directory with `shutil.move` (possible in Python only under
  external interference) is outside the model and treated as a failure; all
  moves the program itself plans have regular files as sources.
-/

deriving instance DecidableEq for Except

/-- A filesystem path, as components relative to the target folder. -/
abbrev FPath := List String

/-- One recorded relocation, the `{"src": ..., "dst": ...}` object. -/
structure ActionRec where
  src : FPath
  dst : FPath
deriving DecidableEq

/-- File content: a well-formed serialized action list, or any other bytes. -/
inductive Content where
  | blob : Content
  | json : List ActionRec → Content
deriving DecidableEq, Inhabited

/-- Filesystem state: regular-file entries and existing directories. -/
structure FS where
  files : List (FPath × Content)
  dirs : List FPath
deriving DecidableEq

/-- Content of the regular file at `p`, if one exists. -/
def lookupFile (s : FS) (p : FPath) : Option Content :=
  (s.files.find? (fun e => decide (e.1 = p))).map (·.2)

/-- `os.path.isfile`. -/
def isfile (s : FS) (p : FPath) : Bool :=
  (lookupFile s p).isSome

/-- `os.path.isdir`; the target folder itself (`[]`) always exists. -/
def isdir (s : FS) (p : FPath) : Bool :=
  decide (p = []) || decide (p ∈ s.dirs)

/-- `os.path.exists`. -/
def pathExists (s : FS) (p : FPath) : Bool :=
  isfile s p || isdir s p

/-- `os.listdir`: names of the immediate children of directory `d`. -/
def listdir (s : FS) (d : FPath) : List String :=
  (s.files.filterMap fun e =>
    if e.1.dropLast = d ∧ e.1 ≠ [] then e.1.getLast? else none) ++
  (s.dirs.filterMap fun q =>
    if q.dropLast = d ∧ q ≠ [] then q.getLast? else none)

/-- Create or overwrite the regular file at `p` with content `c`. -/
def writeFile (s : FS) (p : FPath) (c : Content) : FS :=
  if s.files.any (fun e => decide (e.1 = p)) then
    { s with files := s.files.map (fun e => if e.1 = p then (p, c) else e) }
  else
    { s with files := s.files ++ [(p, c)] }

/-- Remove the regular file at `p` (all entries, if duplicated). -/
def removeFile (s : FS) (p : FPath) : FS :=
  { s with files := s.files.filter (fun e => decide (e.1 ≠ p)) }

/-- The nonempty ancestors of a path, shortest first. -/
def ancestors (p : FPath) : List FPath :=
  (List.range p.length).map (fun i => p.take (i + 1))

/-- `os.makedirs(p, exist_ok=True)`: creates `p` and its missing ancestors;
raises (`.error`) when some ancestor already exists as a regular file. -/
def makedirs (s : FS) (p : FPath) : Except Unit FS :=
  if (ancestors p).any (fun q => isfile s q) then .error ()
  else .ok { s with
    dirs := ((ancestors p).foldl (fun d q => if q ∈ d then d else d ++ [q])
      s.dirs) }

/-- `os.path.basename` of a structural path. -/
def basename (p : FPath) : String :=
  p.getLastD ""

/-- `shutil.move src dst` for a regular-file source: when `dst` is an existing
directory the real destination is `dst/basename src` and an existing entry
there raises; otherwise `os.rename` overwrites a plain-file destination.  A
missing source, a missing destination parent directory, or a directory source
raises (`.error`, caught or not depending on the call site). -/
def shutilMove (s : FS) (src dst : FPath) : Except Unit FS :=
  if isdir s dst then
    if pathExists s (dst ++ [basename src]) then .error ()
    else match lookupFile s src with
      | some c => .ok (writeFile (removeFile s src) (dst ++ [basename src]) c)
      | none => .error ()
  else
    if isdir s dst.dropLast then
      match lookupFile s src with
      | some c => .ok (writeFile (removeFile s src) dst c)
      | none => .error ()
    else .error ()

/-- `os.replace p q`: rename the file at `p` to `q`, overwriting `q`. -/
def renameFile (s : FS) (p q : FPath) : FS :=
  match lookupFile s p with
  | some c => writeFile (removeFile s p) q c
  | none => s

/-- The reserved log subdirectory name, `LOGS_DIR = ".aioffice_logs"`. -/
def LOGS_DIR : String := ".aioffice_logs"

/-- Python `s.startswith(pre)`. -/
def pyStartswith (s pre : String) : Bool :=
  pre.data.isPrefixOf s.data

/-- Worker for `pyReplaceAll`, structurally recursive on a fuel argument (one
unit of fuel per consumed character, so `s.length` fuel always suffices). -/
def pyReplaceAllAux (pat rep : List Char) : Nat → List Char → List Char
  | 0, s => s
  | _ + 1, [] => []
  | fuel + 1, c :: cs =>
    if pat ≠ [] ∧ pat.isPrefixOf (c :: cs) then
      rep ++ pyReplaceAllAux pat rep fuel (cs.drop (pat.length - 1))
    else
      c :: pyReplaceAllAux pat rep fuel cs

/-- Python `str.replace(pat, rep)` on character lists: replaces every
non-overlapping occurrence, scanning left to right.  (The program only calls
it with the nonempty pattern `"history_"`; for an empty pattern this model
returns the input unchanged.) -/
def pyReplaceAll (pat rep s : List Char) : List Char :=
  pyReplaceAllAux pat rep s.length s

/-- `history_file.replace("history_", "undone_")`, on the file name (see the
module comment for why the folder prefix is not affected). -/
def undoneName (s : String) : String :=
  ⟨pyReplaceAll "history_".data "undone_".data s.data⟩

/-- Python `str.lower()` (ASCII case mapping suffices for this program). -/
def strLower (s : String) : String :=
  ⟨s.data.map Char.toLower⟩

/-- Python `str.strip('.')`: remove leading and trailing dots. -/
def pyStripDots (s : String) : String :=
  ⟨((s.data.dropWhile (fun c => c = '.')).reverse.dropWhile
      (fun c => c = '.')).reverse⟩

/-- The extension part of `os.path.splitext(fname)` for a bare file name (no
separator), following CPython: the suffix from the last dot, unless every
character before that dot is itself a dot. -/
def splitextExt (fname : String) : String :=
  let cs := fname.data
  match cs.reverse.findIdx? (fun c => c = '.') with
  | none => ""
  | some k =>
    let d := cs.length - 1 - k
    if (cs.take d).all (fun c => c = '.') then "" else ⟨cs.drop d⟩

/-- `os.path.splitext(fname)[1].lower().strip('.')`, defaulted to `no_ext`. -/
def extOf (fname : String) : String :=
  let e := pyStripDots (strLower (splitextExt fname))
  if e = "" then "no_ext" else e

/-- Lexicographic strict comparison of character lists by code point, the
order Python uses to compare `str` values. -/
def chLt : List Char → List Char → Bool
  | [], [] => false
  | [], _ :: _ => true
  | _ :: _, [] => false
  | a :: as, b :: bs => if a < b then true else if b < a then false else chLt as bs

/-- Python `a < b` on strings. -/
def pyStrLt (a b : String) : Bool :=
  chLt a.data b.data

/-- Python `a <= b` on strings (`¬ b < a` under the total order). -/
def pyLe (a b : String) : Prop :=
  pyStrLt b a = false

instance : DecidableRel pyLe :=
  fun a b => inferInstanceAs (Decidable (pyStrLt b a = false))

/-- Python `sorted` on strings (ascending code-point lexicographic order; any
correct sort of strings is extensionally equal to it). -/
def pySorted (l : List String) : List String :=
  List.insertionSort pyLe l

/-- The history file name written by a non-dry-run pass,
`f"history_{timestamp}.json"`. -/
def historyName (timestamp : String) : String :=
  "history_" ++ timestamp ++ ".json"

/-- The per-name guard of the scan loop,
`os.path.isfile(fpath) and not fpath.startswith(os.path.join(folder,
LOGS_DIR))`, where `fpath = os.path.join(folder, fname)`. -/
def planCond (folder : String) (s : FS) (fname : String) : Bool :=
  isfile s [fname] &&
    !(pyStartswith (folder ++ "/" ++ fname) (folder ++ "/" ++ LOGS_DIR))

/-- The scan-and-plan loop of `scan_and_organize`: for each listed name
passing `planCond`, create the category directory (uncaught
`FileExistsError` when a file blocks it) and append the planned action. -/
def planLoop (folder : String) : FS → List String → List ActionRec →
    Except Unit (List ActionRec × FS)
  | s, [], acc => .ok (acc, s)
  | s, fname :: rest, acc =>
    if planCond folder s fname then
      match makedirs s [extOf fname] with
      | .error e => .error e
      | .ok s1 =>
        planLoop folder s1 rest
          (acc ++ [{ src := [fname], dst := [extOf fname, fname] }])
    else
      planLoop folder s rest acc

/-- One attempted move of the execution phase: a raised `shutil.move` is
caught (`except Exception`) and leaves the state unchanged. -/
def moveStep (s : FS) (act : ActionRec) : FS :=
  match shutilMove s act.src act.dst with
  | .ok t => t
  | .error _ => s

/-- `moveStep` with the environmental-failure oracle: when the oracle says
the `i`-th `shutil.move` call raises, the state is untouched (the handler
only logs). -/
def moveStepO (oracle : Nat → Bool) (i : Nat) (s : FS) (act : ActionRec) :
    FS :=
  if oracle i then s else moveStep s act

/-- The `for act in actions: try: shutil.move(...) except: log` loop; `i`
indexes the batch for the environmental-failure oracle. -/
def performMoves (oracle : Nat → Bool) : FS → List ActionRec → Nat → FS
  | s, [], _ => s
  | s, act :: rest, i =>
    performMoves oracle (moveStepO oracle i s act) rest (i + 1)

/-- The tail of `scan_and_organize` after the scan: report only on dry run,
otherwise perform the moves and serialize the originally planned action list
to the timestamped history file (`open(history_file, "w")` raising uncaught
when the log directory is missing or a directory squats on the path). -/
def organizeFinish (oracle : Nat → Bool) (dry_run : Bool)
    (timestamp : String) (actions : List ActionRec) (s1 : FS) :
    Except Unit (List ActionRec × FS) :=
  if dry_run then .ok (actions, s1)
  else
    if isdir (performMoves oracle s1 actions 0) [LOGS_DIR] &&
        !(isdir (performMoves oracle s1 actions 0)
            [LOGS_DIR, historyName timestamp]) then
      .ok (actions,
        writeFile (performMoves oracle s1 actions 0)
          [LOGS_DIR, historyName timestamp] (Content.json actions))
    else .error ()

/-- `scan_and_organize(folder, dry_run, prefix)`.  The folder-existence guard
of the source is satisfied by construction (the model's root is the folder).
`.error` marks an uncaught exception: a `FileExistsError` from `os.makedirs`
during the scan, or a failing `open(history_file, "w")`. -/
def scan_and_organize (oracle : Nat → Bool) (folder : String) (s : FS)
    (dry_run : Bool) (pfx : String) (timestamp : String) :
    Except Unit (List ActionRec × FS) :=
  match planLoop folder s (listdir s []) [] with
  | .error e => .error e
  | .ok (actions, s1) => organizeFinish oracle dry_run timestamp actions s1

/-- The history file `undo_last` targets:
`sorted([f for f in os.listdir(logs_path) if f.startswith("history_")])[-1]`. -/
def selectHistory (s : FS) : Option String :=
  (pySorted ((listdir s [LOGS_DIR]).filter
    (fun f => pyStartswith f "history_"))).getLast?

/-- `json.load` on the file at `p`: succeeds only on a well-formed serialized
action list. -/
def readJson (s : FS) (p : FPath) : Except Unit (List ActionRec) :=
  match lookupFile s p with
  | some (Content.json acts) => .ok acts
  | _ => .error ()

/-- One iteration of undo's restore loop: everything inside the `try`, so a
raised `os.makedirs` or `shutil.move` is caught (the oracle firing at `i`
models the `shutil.move` call raising after `os.makedirs` succeeded); an
absent destination is skipped with no mutation. -/
def restoreStepO (oracle : Nat → Bool) (i : Nat) (s : FS) (act : ActionRec) :
    FS :=
  if pathExists s act.dst then
    match makedirs s act.src.dropLast with
    | .error _ => s
    | .ok s1 =>
      if oracle i then s1
      else match shutilMove s1 act.dst act.src with
        | .ok s2 => s2
        | .error _ => s1
  else s

/-- The `for act in actions: try: ... except: log` loop of `undo_last`. -/
def restoreLoop (oracle : Nat → Bool) : FS → List ActionRec → Nat → FS
  | s, [], _ => s
  | s, act :: rest, i =>
    restoreLoop oracle (restoreStepO oracle i s act) rest (i + 1)

/-- Observable outcome of `undo_last`: the "no history" messages, an uncaught
`json.load` exception, or normal completion with the replayed action list. -/
inductive UndoOutcome where
  | noLogsDir : UndoOutcome
  | noHistory : UndoOutcome
  | parseRaised : UndoOutcome
  | ok : List ActionRec → UndoOutcome
deriving DecidableEq

/-- `undo_last(folder)`: select the lexicographically last active history
file, parse it (uncaught on malformed content), replay each action in
reverse direction when its destination exists, then rename the history file
to its undone form with `os.replace`. -/
def undo_last (oracle : Nat → Bool) (s : FS) : UndoOutcome × FS :=
  if !(isdir s [LOGS_DIR]) then (.noLogsDir, s)
  else
    match selectHistory s with
    | none => (.noHistory, s)
    | some last =>
      match readJson s [LOGS_DIR, last] with
      | .error _ => (.parseRaised, s)
      | .ok actions =>
        let s1 := restoreLoop oracle s actions 0
        (.ok actions,
          renameFile s1 [LOGS_DIR, last] [LOGS_DIR, undoneName last])

/-- `list_history(folder)`: the sorted log-directory listing, read-only. -/
def list_history (s : FS) : Option (List String) :=
  if !(isdir s [LOGS_DIR]) then none
  else some (pySorted (listdir s [LOGS_DIR]))

example :
    extOf "a.TXT" = "txt" ∧ extOf "c" = "no_ext" ∧ extOf ".bashrc" = "no_ext"
      ∧ extOf "foo." = "no_ext" ∧ extOf "a.tar.gz" = "gz" := by decide

example : undoneName "history_20250101T000000Z.json"
    = "undone_20250101T000000Z.json" := by decide

/-! ### Order lemmas for the Python string comparison -/

theorem chLt_irrefl (l : List Char) : chLt l l = false := by
  induction l with
  | nil => rfl
  | cons a as ih => simp [chLt, ih]

theorem chLt_asymm : ∀ {l₁ l₂ : List Char},
    chLt l₁ l₂ = true → chLt l₂ l₁ = false
  | [], [] => by simp [chLt]
  | [], _ :: _ => by simp [chLt]
  | _ :: _, [] => by simp [chLt]
  | a :: as, b :: bs => by
    by_cases hab : a < b
    · simp [chLt, hab, asymm hab, not_lt_of_lt hab]
    · by_cases hba : b < a
      · simp [chLt, hab, hba]
      · simp only [chLt, if_neg hab, if_neg hba]
        exact chLt_asymm

theorem chLt_trans : ∀ {l₁ l₂ l₃ : List Char},
    chLt l₁ l₂ = true → chLt l₂ l₃ = true → chLt l₁ l₃ = true
  | [], [], _ => by simp [chLt]
  | [], _ :: _, [] => by simp [chLt]
  | [], _ :: _, _ :: _ => by simp [chLt]
  | _ :: _, [], _ => by simp [chLt]
  | _ :: _, _ :: _, [] => by simp [chLt]
  | a :: as, b :: bs, c :: cs => by
    by_cases hab : a < b <;> by_cases hbc : b < c
    · simp [chLt, lt_trans hab hbc, hab, hbc]
    · by_cases hcb : c < b
      · simp only [chLt, if_pos hab, if_neg hbc, if_pos hcb]
        intro _ h; cases h
      · have hbc' : b = c := le_antisymm (not_lt.mp hcb) (not_lt.mp hbc)
        subst hbc'
        simp [chLt, hab]
    · by_cases hba : b < a
      · simp only [chLt, if_neg hab, if_pos hba]
        intro h; cases h
      · have hab' : a = b := le_antisymm (not_lt.mp hba) (not_lt.mp hab)
        subst hab'
        simp [chLt, hbc]
    · by_cases hba : b < a
      · simp only [chLt, if_neg hab, if_pos hba]
        intro h; cases h
      · by_cases hcb : c < b
        · simp only [chLt, if_neg hbc, if_pos hcb]
          intro _ h; cases h
        · have hab' : a = b := le_antisymm (not_lt.mp hba) (not_lt.mp hab)
          have hbc' : b = c := le_antisymm (not_lt.mp hcb) (not_lt.mp hbc)
          subst hab'; subst hbc'
          simp only [chLt, lt_irrefl, if_neg (lt_irrefl a)]
          exact chLt_trans

theorem chLt_eq_of_not : ∀ {l₁ l₂ : List Char},
    chLt l₁ l₂ = false → chLt l₂ l₁ = false → l₁ = l₂
  | [], [] => by simp
  | [], _ :: _ => by simp [chLt]
  | _ :: _, [] => by simp [chLt]
  | a :: as, b :: bs => by
    by_cases hab : a < b
    · simp [chLt, hab]
    · by_cases hba : b < a
      · simp [chLt, hab, hba]
      · have hab' : a = b := le_antisymm (not_lt.mp hba) (not_lt.mp hab)
        subst hab'
        simp only [chLt, if_neg hab, lt_irrefl, if_neg (lt_irrefl a),
          List.cons.injEq, true_and]
        exact chLt_eq_of_not

theorem pyLe_refl (a : String) : pyLe a a := by
  simp [pyLe, pyStrLt, chLt_irrefl]

theorem pyLe_trans {a b c : String} (h₁ : pyLe a b) (h₂ : pyLe b c) :
    pyLe a c := by
  unfold pyLe pyStrLt at *
  cases hca : chLt c.data a.data with
  | false => rfl
  | true =>
    exfalso
    cases hbc : chLt b.data c.data with
    | true =>
      have := chLt_trans hbc hca
      rw [this] at h₁; cases h₁
    | false =>
      have hbc' : b.data = c.data := chLt_eq_of_not hbc h₂
      rw [← hbc'] at hca
      rw [hca] at h₁; cases h₁

theorem pyLe_antisymm {a b : String} (h₁ : pyLe a b) (h₂ : pyLe b a) :
    a = b := by
  unfold pyLe pyStrLt at *
  exact congrArg String.mk (chLt_eq_of_not h₂ h₁)

theorem pyLe_total (a b : String) : pyLe a b ∨ pyLe b a := by
  unfold pyLe pyStrLt
  cases hba : chLt b.data a.data with
  | false => exact Or.inl rfl
  | true => exact Or.inr (chLt_asymm hba)

instance : IsTotal String pyLe := ⟨pyLe_total⟩

instance : IsTrans String pyLe := ⟨fun _ _ _ => pyLe_trans⟩

theorem mem_pySorted {x : String} {l : List String} :
    x ∈ pySorted l ↔ x ∈ l :=
  (List.perm_insertionSort pyLe l).mem_iff

theorem sorted_pySorted (l : List String) : List.Sorted pyLe (pySorted l) :=
  List.sorted_insertionSort pyLe l

theorem sorted_getLast?_le : ∀ {l : List String} {m : String},
    List.Sorted pyLe l → l.getLast? = some m → ∀ x ∈ l, pyLe x m
  | [], _, _, hm => by cases hm
  | [a], m, _, hm => by
    intro x hx
    have ha : a = m := by simpa using hm
    have hx' : x = a := by simpa using hx
    rw [hx', ha]
    exact pyLe_refl m
  | a :: b :: l, m, hs, hm => by
    intro x hx
    rw [List.getLast?_cons_cons] at hm
    rcases List.mem_cons.mp hx with rfl | hx'
    · have hab : pyLe x b := List.rel_of_sorted_cons hs b (List.mem_cons_self b l)
      have hbm : pyLe b m :=
        sorted_getLast?_le hs.of_cons hm b (List.mem_cons_self b l)
      exact pyLe_trans hab hbm
    · exact sorted_getLast?_le hs.of_cons hm x hx'

theorem getLast?_mem : ∀ {l : List String} {m : String},
    l.getLast? = some m → m ∈ l := by
  intro l m h
  cases l with
  | nil => cases h
  | cons a l' =>
    have hne : a :: l' ≠ [] := by simp
    rw [List.getLast?_eq_getLast _ hne] at h
    have h' : (a :: l').getLast hne = m := by injection h
    rw [← h']
    exact List.getLast_mem hne

/-- The maximum characterization of `sorted(...)[-1]`: the selected element is
in the listing and is an upper bound of it. -/
theorem pySorted_getLast?_spec {l : List String} {m : String}
    (h : (pySorted l).getLast? = some m) : m ∈ l ∧ ∀ x ∈ l, pyLe x m := by
  refine ⟨mem_pySorted.mp (getLast?_mem h), fun x hx => ?_⟩
  exact sorted_getLast?_le (sorted_pySorted l) h x (mem_pySorted.mpr hx)

/-- Conversely, a strict upper bound that is in the listing is selected. -/
theorem pySorted_getLast?_of_max {l : List String} {m : String}
    (hmem : m ∈ l) (hmax : ∀ x ∈ l, pyLe x m) :
    (pySorted l).getLast? = some m := by
  have hne : pySorted l ≠ [] := by
    intro h
    rw [← mem_pySorted] at hmem
    rw [h] at hmem
    cases hmem
  obtain ⟨m', hm'⟩ : ∃ m', (pySorted l).getLast? = some m' :=
    ⟨_, List.getLast?_eq_getLast _ hne⟩
  obtain ⟨hm'mem, hm'max⟩ := pySorted_getLast?_spec hm'
  rw [hm', pyLe_antisymm (hm'max m hmem) (hmax m' hm'mem)]

/-! ### Lemmas about the name transformations -/

theorem pyReplaceAllAux_fuel_eq (pat rep : List Char) :
    ∀ (f₁ : Nat) {f₂ : Nat} {s : List Char},
      s.length ≤ f₁ → s.length ≤ f₂ →
      pyReplaceAllAux pat rep f₁ s = pyReplaceAllAux pat rep f₂ s
  | 0, f₂, s, h₁, _ => by
    have hs : s = [] := List.eq_nil_of_length_eq_zero (Nat.le_zero.mp h₁)
    subst hs
    cases f₂ <;> rfl
  | f₁ + 1, f₂, [], _, _ => by cases f₂ <;> rfl
  | f₁ + 1, f₂, c :: cs, h₁, h₂ => by
    have hf₂ : ∃ f₂', f₂ = f₂' + 1 := by
      cases f₂ with
      | zero => simp at h₂
      | succ n => exact ⟨n, rfl⟩
    obtain ⟨f₂', rfl⟩ := hf₂
    simp only [List.length_cons, Nat.add_le_add_iff_right] at h₁ h₂
    by_cases hc : pat ≠ [] ∧ pat.isPrefixOf (c :: cs)
    · simp only [pyReplaceAllAux, if_pos hc]
      have hd : (cs.drop (pat.length - 1)).length ≤ cs.length := by
        rw [List.length_drop]; omega
      rw [pyReplaceAllAux_fuel_eq pat rep f₁ (le_trans hd h₁) (le_trans hd h₂)]
    · simp only [pyReplaceAllAux, if_neg hc]
      rw [pyReplaceAllAux_fuel_eq pat rep f₁ h₁ h₂]

theorem pyReplaceAll_append_left {pat : List Char} (rep t : List Char)
    (hpat : pat ≠ []) :
    pyReplaceAll pat rep (pat ++ t) = rep ++ pyReplaceAll pat rep t := by
  obtain ⟨p, ps, rfl⟩ : ∃ p ps, pat = p :: ps := by
    cases pat with
    | nil => exact absurd rfl hpat
    | cons p ps => exact ⟨p, ps, rfl⟩
  unfold pyReplaceAll
  have hlen : ((p :: ps) ++ t).length = (ps ++ t).length + 1 := by
    simp
  rw [hlen]
  show pyReplaceAllAux (p :: ps) rep ((ps ++ t).length + 1) (p :: (ps ++ t))
    = rep ++ pyReplaceAllAux (p :: ps) rep t.length t
  have hpre : (p :: ps).isPrefixOf (p :: (ps ++ t)) = true :=
    List.isPrefixOf_iff_prefix.mpr (List.prefix_append (p :: ps) t)
  rw [pyReplaceAllAux]
  rw [if_pos ⟨hpat, hpre⟩]
  have hdrop : (ps ++ t).drop ((p :: ps).length - 1) = t := by
    simp only [List.length_cons, Nat.add_sub_cancel]
    exact List.drop_left ps t
  rw [hdrop]
  rw [pyReplaceAllAux_fuel_eq (p :: ps) rep (ps ++ t).length
    (by simp) (le_refl t.length)]

theorem pyStartswith_iff {s pre : String} :
    pyStartswith s pre = true ↔ pre.data <+: s.data := by
  unfold pyStartswith
  exact List.isPrefixOf_iff_prefix

theorem undoneName_startswith {h : String}
    (hh : pyStartswith h "history_" = true) :
    pyStartswith (undoneName h) "undone_" = true := by
  obtain ⟨t, ht⟩ := pyStartswith_iff.mp hh
  unfold undoneName
  rw [← ht, pyReplaceAll_append_left _ t (by decide)]
  exact pyStartswith_iff.mpr (List.prefix_append _ _)

theorem startswith_history_ne_undone {x y : String}
    (hx : pyStartswith x "history_" = true)
    (hy : pyStartswith y "undone_" = true) : x ≠ y := by
  intro hxy
  subst hxy
  obtain h₁ := pyStartswith_iff.mp hx
  obtain h₂ := pyStartswith_iff.mp hy
  rcases List.prefix_or_prefix_of_prefix h₁ h₂ with h | h
  · have hle := h.length_le
    revert hle; decide
  · have heq := List.prefix_iff_eq_take.mp h
    revert heq; decide

theorem pyStartswith_append_iff {a s pre : String} :
    pyStartswith (a ++ s) (a ++ pre) = true ↔ pyStartswith s pre = true := by
  unfold pyStartswith
  rw [List.isPrefixOf_iff_prefix, List.isPrefixOf_iff_prefix,
    String.data_append, String.data_append]
  exact List.prefix_append_right_inj a.data

/-! ### Frame lemmas for the filesystem operations -/

theorem find?_map_update {p : FPath} {c : Content} :
    ∀ {l : List (FPath × Content)},
      l.any (fun e => decide (e.1 = p)) = true →
      (l.map (fun e => if e.1 = p then (p, c) else e)).find?
        (fun e => decide (e.1 = p)) = some (p, c)
  | [], h => by cases h
  | e :: l, h => by
    by_cases he : e.1 = p
    · rw [List.map_cons, if_pos he,
        List.find?_cons_of_pos _ (by simp)]
    · have h' : l.any (fun e => decide (e.1 = p)) = true := by
        simpa [List.any_cons, he] using h
      rw [List.map_cons, if_neg he,
        List.find?_cons_of_neg _ (by simpa using he)]
      exact find?_map_update h'

theorem lookupFile_writeFile_self (s : FS) (p : FPath) (c : Content) :
    lookupFile (writeFile s p c) p = some c := by
  unfold writeFile lookupFile
  by_cases h : s.files.any (fun e => decide (e.1 = p)) = true
  · rw [if_pos h]
    simp only
    rw [find?_map_update h]
    rfl
  · rw [if_neg h]
    simp only
    rw [List.find?_append]
    have hn : s.files.find? (fun e => decide (e.1 = p)) = none := by
      rw [List.find?_eq_none]
      intro e he
      simp only [decide_eq_true_eq]
      intro hep
      exact h (List.any_eq_true.mpr ⟨e, he, by simp [hep]⟩)
    rw [hn, List.find?_cons_of_pos _ (by simp)]
    rfl

theorem lookupFile_writeFile_ne (s : FS) {p q : FPath} (c : Content)
    (h : q ≠ p) : lookupFile (writeFile s p c) q = lookupFile s q := by
  unfold writeFile lookupFile
  by_cases hb : s.files.any (fun e => decide (e.1 = p)) = true
  · rw [if_pos hb]
    simp only
    clear hb
    induction s.files with
    | nil => rfl
    | cons e l ih =>
      by_cases hep : e.1 = p
      · have heq : ¬ e.1 = q := by rw [hep]; exact fun hh => h hh.symm
        rw [List.map_cons, if_pos hep,
          List.find?_cons_of_neg _ (by simpa using fun hh : p = q => h hh.symm),
          List.find?_cons_of_neg _ (by simpa using heq)]
        exact ih
      · rw [List.map_cons, if_neg hep]
        by_cases heq : e.1 = q
        · rw [List.find?_cons_of_pos _ (by simpa using heq),
            List.find?_cons_of_pos _ (by simpa using heq)]
        · rw [List.find?_cons_of_neg _ (by simpa using heq),
            List.find?_cons_of_neg _ (by simpa using heq)]
          exact ih
  · rw [if_neg hb]
    simp only
    rw [List.find?_append]
    cases hf : s.files.find? (fun e => decide (e.1 = q)) with
    | some e => rfl
    | none =>
      rw [List.find?_cons_of_neg _ (by simpa using h.symm)]
      rfl

theorem lookupFile_removeFile_self (s : FS) (p : FPath) :
    lookupFile (removeFile s p) p = none := by
  unfold removeFile lookupFile
  simp only
  have hn : (s.files.filter (fun e => decide (e.1 ≠ p))).find?
      (fun e => decide (e.1 = p)) = none := by
    rw [List.find?_eq_none]
    intro e he
    have h2 := (List.mem_filter.mp he).2
    simp only [decide_eq_true_eq] at h2 ⊢
    exact h2
  rw [hn]
  rfl

theorem lookupFile_removeFile_ne (s : FS) {p q : FPath} (h : q ≠ p) :
    lookupFile (removeFile s p) q = lookupFile s q := by
  unfold removeFile lookupFile
  simp only
  induction s.files with
  | nil => rfl
  | cons e l ih =>
    by_cases hep : e.1 = p
    · rw [List.filter_cons_of_neg (by simpa using hep),
        List.find?_cons_of_neg _
          (by simp only [decide_eq_true_eq]; rw [hep]; exact fun hh => h hh.symm)]
      exact ih
    · rw [List.filter_cons_of_pos (by simpa using hep)]
      by_cases heq : e.1 = q
      · rw [List.find?_cons_of_pos _ (by simpa using heq),
          List.find?_cons_of_pos _ (by simpa using heq)]
      · rw [List.find?_cons_of_neg _ (by simpa using heq),
          List.find?_cons_of_neg _ (by simpa using heq)]
        exact ih

theorem dirs_writeFile (s : FS) (p : FPath) (c : Content) :
    (writeFile s p c).dirs = s.dirs := by
  unfold writeFile
  split <;> rfl

theorem dirs_removeFile (s : FS) (p : FPath) :
    (removeFile s p).dirs = s.dirs := rfl

theorem dirs_renameFile (s : FS) (p q : FPath) :
    (renameFile s p q).dirs = s.dirs := by
  unfold renameFile
  cases lookupFile s p with
  | some c => rw [dirs_writeFile, dirs_removeFile]
  | none => rfl

theorem dirs_shutilMove {s t : FS} {src dst : FPath}
    (h : shutilMove s src dst = .ok t) : t.dirs = s.dirs := by
  unfold shutilMove at h
  by_cases h1 : isdir s dst = true
  · rw [if_pos h1] at h
    by_cases h2 : pathExists s (dst ++ [basename src]) = true
    · rw [if_pos h2] at h; cases h
    · rw [if_neg h2] at h
      cases hl : lookupFile s src with
      | some c =>
        rw [hl] at h
        cases h
        rw [dirs_writeFile, dirs_removeFile]
      | none => rw [hl] at h; cases h
  · rw [if_neg h1] at h
    by_cases h2 : isdir s dst.dropLast = true
    · rw [if_pos h2] at h
      cases hl : lookupFile s src with
      | some c =>
        rw [hl] at h
        cases h
        rw [dirs_writeFile, dirs_removeFile]
      | none => rw [hl] at h; cases h
    · rw [if_neg h2] at h; cases h

theorem dirs_moveStep (s : FS) (act : ActionRec) :
    (moveStep s act).dirs = s.dirs := by
  unfold moveStep
  cases hm : shutilMove s act.src act.dst with
  | ok t => exact dirs_shutilMove hm
  | error e => rfl

theorem dirs_performMoves (oracle : Nat → Bool) :
    ∀ (acts : List ActionRec) (s : FS) (i : Nat),
      (performMoves oracle s acts i).dirs = s.dirs
  | [], _, _ => rfl
  | act :: rest, s, i => by
    unfold performMoves
    rw [dirs_performMoves oracle rest _ (i + 1)]
    unfold moveStepO
    split
    · rfl
    · exact dirs_moveStep s act

theorem makedirs_nil (s : FS) : makedirs s [] = .ok s := rfl

theorem isdir_makedirs_of_isdir {s t : FS} {p q : FPath}
    (h : makedirs s p = .ok t) (hq : isdir s q = true) : isdir t q = true := by
  unfold makedirs at h
  split at h
  · cases h
  · cases h
    unfold isdir at hq ⊢
    rcases Bool.or_eq_true _ _ |>.mp hq with h' | h'
    · exact Bool.or_eq_true _ _ |>.mpr (Or.inl h')
    · refine Bool.or_eq_true _ _ |>.mpr (Or.inr ?_)
      simp only [decide_eq_true_eq] at h' ⊢
      generalize s.dirs = d at h' ⊢
      induction ancestors p generalizing d with
      | nil => exact h'
      | cons a l ih =>
        simp only [List.foldl]
        split
        · exact ih d h'
        · exact ih (d ++ [a]) (List.mem_append_left _ h')

theorem files_makedirs {s t : FS} {p : FPath}
    (h : makedirs s p = .ok t) : t.files = s.files := by
  unfold makedirs at h
  split at h
  · cases h
  · cases h; rfl

theorem lookupFile_eq_of_files {s t : FS} (h : t.files = s.files)
    (p : FPath) : lookupFile t p = lookupFile s p := by
  unfold lookupFile
  rw [h]

theorem lookupFile_entry {s : FS} {p : FPath} {c : Content}
    (h : lookupFile s p = some c) : (p, c) ∈ s.files := by
  unfold lookupFile at h
  cases hf : s.files.find? (fun e => decide (e.1 = p)) with
  | none => rw [hf] at h; cases h
  | some e =>
    obtain ⟨pp, cc⟩ := e
    have hmem := List.mem_of_find?_eq_some hf
    have hpe := List.find?_some hf
    simp only [decide_eq_true_eq] at hpe
    rw [hf] at h
    have hcc : cc = c := by
      simpa using h
    rw [← hpe, ← hcc]
    exact hmem

theorem isfile_true_iff {s : FS} {p : FPath} :
    isfile s p = true ↔ ∃ c, lookupFile s p = some c := by
  unfold isfile
  cases lookupFile s p <;> simp

theorem isfile_entry {s : FS} {p : FPath} {c : Content}
    (h : (p, c) ∈ s.files) : isfile s p = true := by
  unfold isfile lookupFile
  cases hf : s.files.find? (fun e => decide (e.1 = p)) with
  | none =>
    rw [List.find?_eq_none] at hf
    have := hf (p, c) h
    simp at this
  | some e => rfl

theorem path_child {p d : FPath} {n : String} (h1 : p.dropLast = d)
    (h2 : p ≠ []) (h3 : p.getLast? = some n) : p = d ++ [n] := by
  have h4 := List.dropLast_append_getLast h2
  rw [List.getLast?_eq_getLast _ h2] at h3
  have h5 : p.getLast h2 = n := by injection h3
  rw [← h4, h1, h5]

theorem mem_listdir {s : FS} {d : FPath} {n : String} :
    n ∈ listdir s d ↔
      (∃ c, (d ++ [n], c) ∈ s.files) ∨ (d ++ [n]) ∈ s.dirs := by
  unfold listdir
  rw [List.mem_append, List.mem_filterMap, List.mem_filterMap]
  constructor
  · rintro (⟨e, he, hfe⟩ | ⟨q, hq, hfq⟩)
    · left
      split at hfe
      · next hcond =>
        have hp : e.1 = d ++ [n] := path_child hcond.1 hcond.2 hfe
        exact ⟨e.2, by rw [← hp]; exact he⟩
      · cases hfe
    · right
      split at hfq
      · next hcond =>
        have hp : q = d ++ [n] := path_child hcond.1 hcond.2 hfq
        rw [← hp]
        exact hq
      · cases hfq
  · rintro (⟨c, hc⟩ | hd)
    · left
      refine ⟨(d ++ [n], c), hc, ?_⟩
      rw [if_pos ⟨List.dropLast_concat, by simp⟩]
      exact List.getLast?_concat d
    · right
      refine ⟨d ++ [n], hd, ?_⟩
      rw [if_pos ⟨List.dropLast_concat, by simp⟩]
      exact List.getLast?_concat d

theorem mem_foldl_insert_of_mem {q : FPath} :
    ∀ (l : List FPath) {d : List FPath}, q ∈ d →
      q ∈ l.foldl (fun d r => if r ∈ d then d else d ++ [r]) d
  | [], _, h => h
  | a :: l, d, h => by
    simp only [List.foldl]
    split
    · exact mem_foldl_insert_of_mem l h
    · exact mem_foldl_insert_of_mem l (List.mem_append_left _ h)

theorem mem_foldl_insert_elem {q : FPath} :
    ∀ (l : List FPath) {d : List FPath}, q ∈ l →
      q ∈ l.foldl (fun d r => if r ∈ d then d else d ++ [r]) d
  | [], _, h => absurd h (List.not_mem_nil q)
  | a :: l, d, h => by
    rcases List.mem_cons.mp h with rfl | h'
    · simp only [List.foldl]
      split
      · next hqd => exact mem_foldl_insert_of_mem l hqd
      · exact mem_foldl_insert_of_mem l (List.mem_append_right _ (by simp))
    · simp only [List.foldl]
      split <;> exact mem_foldl_insert_elem l h'

theorem mem_of_mem_foldl_insert {q : FPath} :
    ∀ (l : List FPath) {d : List FPath},
      q ∈ l.foldl (fun d r => if r ∈ d then d else d ++ [r]) d →
      q ∈ d ∨ q ∈ l
  | [], _, h => Or.inl h
  | a :: l, d, h => by
    simp only [List.foldl] at h
    by_cases had : a ∈ d
    · rw [if_pos had] at h
      rcases mem_of_mem_foldl_insert l h with h' | h'
      · exact Or.inl h'
      · exact Or.inr (List.mem_cons_of_mem a h')
    · rw [if_neg had] at h
      rcases mem_of_mem_foldl_insert l h with h' | h'
      · rcases List.mem_append.mp h' with h'' | h''
        · exact Or.inl h''
        · refine Or.inr ?_
          rw [List.mem_singleton.mp h'']
          exact List.mem_cons_self a l
      · exact Or.inr (List.mem_cons_of_mem a h')

theorem mem_dirs_makedirs {s t : FS} {p q : FPath}
    (h : makedirs s p = .ok t) (hq : q ∈ t.dirs) :
    q ∈ s.dirs ∨ q ∈ ancestors p := by
  unfold makedirs at h
  split at h
  · cases h
  · cases h
    exact mem_of_mem_foldl_insert _ hq

theorem dirs_makedirs_ancestor {s t : FS} {p q : FPath}
    (h : makedirs s p = .ok t) (hq : q ∈ ancestors p) : q ∈ t.dirs := by
  unfold makedirs at h
  split at h
  · cases h
  · cases h
    exact mem_foldl_insert_elem _ hq

theorem makedirs_not_isfile {s t : FS} {p q : FPath}
    (h : makedirs s p = .ok t) (hq : q ∈ ancestors p) :
    isfile s q = false := by
  unfold makedirs at h
  split at h
  · cases h
  · next hguard =>
    by_cases hf : isfile s q = true
    · exact absurd (List.any_eq_true.mpr ⟨q, hq, hf⟩) hguard
    · simpa using hf

theorem ancestors_singleton (e : String) : ancestors [e] = [[e]] := rfl

/-! ### Characterization of the planning loop -/

/-- Pure characterization of the plan: one action per listed name passing the
scan guard, in listing order. -/
def planActions (folder : String) (s : FS) (listing : List String) :
    List ActionRec :=
  listing.filterMap (fun fname =>
    if planCond folder s fname then
      some { src := [fname], dst := [extOf fname, fname] }
    else none)

theorem planCond_congr {s t : FS} (h : t.files = s.files) (folder : String)
    (fname : String) : planCond folder t fname = planCond folder s fname := by
  unfold planCond isfile
  rw [lookupFile_eq_of_files h]

theorem planActions_congr {s t : FS} (h : t.files = s.files) (folder : String)
    (l : List String) : planActions folder t l = planActions folder s l := by
  unfold planActions
  induction l with
  | nil => rfl
  | cons a l ih =>
    simp only [List.filterMap_cons, planCond_congr h, ih]

theorem planLoop_spec (folder : String) :
    ∀ (listing : List String) (s : FS) (acc : List ActionRec)
      {A : List ActionRec} {s' : FS},
      planLoop folder s listing acc = .ok (A, s') →
      A = acc ++ planActions folder s listing
      ∧ s'.files = s.files
      ∧ (∀ q, isdir s q = true → isdir s' q = true)
      ∧ (∀ q, q ∈ s'.dirs →
          q ∈ s.dirs ∨ ∃ fname, fname ∈ listing
            ∧ planCond folder s fname = true ∧ q = [extOf fname])
      ∧ (∀ fname ∈ listing, planCond folder s fname = true →
          isfile s [extOf fname] = false ∧ isdir s' [extOf fname] = true)
  | [], s, acc, A, s', h => by
    unfold planLoop at h
    cases h
    refine ⟨by simp [planActions], rfl, fun q hq => hq,
      fun q hq => Or.inl hq, fun fname hf => absurd hf (List.not_mem_nil _)⟩
  | fname :: rest, s, acc, A, s', h => by
    unfold planLoop at h
    by_cases hc : planCond folder s fname = true
    · rw [if_pos hc] at h
      cases hm : makedirs s [extOf fname] with
      | error e => rw [hm] at h; cases h
      | ok s1 =>
        rw [hm] at h
        obtain ⟨hA, hfiles, hmono, hdirs, hext⟩ :=
          planLoop_spec folder rest s1
            (acc ++ [{ src := [fname], dst := [extOf fname, fname] }]) h
        have hf1 : s1.files = s.files := files_makedirs hm
        refine ⟨?_, hfiles.trans hf1, ?_, ?_, ?_⟩
        · rw [hA, planActions_congr hf1]
          unfold planActions
          rw [List.filterMap_cons]
          simp only [if_pos hc, List.append_assoc, List.singleton_append]
        · intro q hq
          exact hmono q (isdir_makedirs_of_isdir hm hq)
        · intro q hq
          rcases hdirs q hq with h' | ⟨fn, hfn, hcfn, rfl⟩
          · rcases mem_dirs_makedirs hm h' with h'' | h''
            · exact Or.inl h''
            · rw [ancestors_singleton] at h''
              refine Or.inr ⟨fname, List.mem_cons_self _ _, hc, ?_⟩
              exact (List.mem_singleton.mp h'')
          · refine Or.inr ⟨fn, List.mem_cons_of_mem _ hfn, ?_, rfl⟩
            exact planCond_congr hf1 folder fn ▸ hcfn
        · intro fn hfn hcfn
          rcases List.mem_cons.mp hfn with rfl | hfn'
          · constructor
            · exact makedirs_not_isfile hm (by rw [ancestors_singleton]; simp)
            · refine hmono _ ?_
              unfold isdir
              refine Bool.or_eq_true _ _ |>.mpr (Or.inr ?_)
              simp only [decide_eq_true_eq]
              exact dirs_makedirs_ancestor hm (by rw [ancestors_singleton]; simp)
          · have hcfn1 : planCond folder s1 fn = true := by
              rw [planCond_congr hf1]; exact hcfn
            obtain ⟨h1, h2⟩ := hext fn hfn' hcfn1
            refine ⟨?_, h2⟩
            unfold isfile at h1 ⊢
            rw [← lookupFile_eq_of_files hf1]
            exact h1
    · rw [if_neg hc] at h
      obtain ⟨hA, hfiles, hmono, hdirs, hext⟩ :=
        planLoop_spec folder rest s acc h
      refine ⟨?_, hfiles, hmono, ?_, ?_⟩
      · rw [hA]
        unfold planActions
        rw [List.filterMap_cons]
        simp only [if_neg hc]
      · intro q hq
        rcases hdirs q hq with h' | ⟨fn, hfn, hcfn, rfl⟩
        · exact Or.inl h'
        · exact Or.inr ⟨fn, List.mem_cons_of_mem _ hfn, hcfn, rfl⟩
      · intro fn hfn hcfn
        rcases List.mem_cons.mp hfn with rfl | hfn'
        · exact absurd hcfn hc
        · exact hext fn hfn' hcfn

/-! ### Batch-processing lemmas -/

theorem performMoves_append (oracle : Nat → Bool) :
    ∀ (l₁ l₂ : List ActionRec) (s : FS) (i : Nat),
      performMoves oracle s (l₁ ++ l₂) i
        = performMoves oracle (performMoves oracle s l₁ i) l₂ (i + l₁.length)
  | [], l₂, s, i => by
    show performMoves oracle s l₂ i = performMoves oracle s l₂ (i + 0)
    rw [Nat.add_zero]
  | act :: l₁, l₂, s, i => by
    show performMoves oracle (moveStepO oracle i s act) (l₁ ++ l₂) (i + 1)
      = performMoves oracle
          (performMoves oracle (moveStepO oracle i s act) l₁ (i + 1)) l₂
          (i + (l₁.length + 1))
    rw [performMoves_append oracle l₁ l₂ (moveStepO oracle i s act) (i + 1)]
    congr 1
    omega

theorem restoreLoop_append (oracle : Nat → Bool) :
    ∀ (l₁ l₂ : List ActionRec) (s : FS) (i : Nat),
      restoreLoop oracle s (l₁ ++ l₂) i
        = restoreLoop oracle (restoreLoop oracle s l₁ i) l₂ (i + l₁.length)
  | [], l₂, s, i => by
    show restoreLoop oracle s l₂ i = restoreLoop oracle s l₂ (i + 0)
    rw [Nat.add_zero]
  | act :: l₁, l₂, s, i => by
    show restoreLoop oracle (restoreStepO oracle i s act) (l₁ ++ l₂) (i + 1)
      = restoreLoop oracle
          (restoreLoop oracle (restoreStepO oracle i s act) l₁ (i + 1)) l₂
          (i + (l₁.length + 1))
    rw [restoreLoop_append oracle l₁ l₂ (restoreStepO oracle i s act) (i + 1)]
    congr 1
    omega

theorem restoreStepO_skip (oracle : Nat → Bool) (i : Nat) {s : FS}
    {act : ActionRec} (h : pathExists s act.dst = false) :
    restoreStepO oracle i s act = s := by
  unfold restoreStepO
  rw [h]
  rfl

theorem mem_planActions {folder : String} {s : FS} {listing : List String}
    {act : ActionRec} :
    act ∈ planActions folder s listing ↔
      ∃ fname ∈ listing, planCond folder s fname = true
        ∧ act = { src := [fname], dst := [extOf fname, fname] } := by
  unfold planActions
  rw [List.mem_filterMap]
  constructor
  · rintro ⟨fname, hm, hf⟩
    by_cases hc : planCond folder s fname = true
    · rw [if_pos hc] at hf
      exact ⟨fname, hm, hc, by injection hf with h; exact h.symm⟩
    · rw [if_neg hc] at hf
      cases hf
  · rintro ⟨fname, hm, hc, rfl⟩
    exact ⟨fname, hm, by rw [if_pos hc]⟩

theorem planCond_iff {folder : String} {s : FS} {fname : String} :
    planCond folder s fname = true ↔
      isfile s [fname] = true ∧ pyStartswith fname LOGS_DIR = false := by
  unfold planCond
  rw [Bool.and_eq_true, Bool.not_eq_true']
  constructor
  · rintro ⟨h1, h2⟩
    refine ⟨h1, ?_⟩
    cases hb : pyStartswith fname LOGS_DIR with
    | false => rfl
    | true =>
      have hh : pyStartswith (folder ++ "/" ++ fname)
          (folder ++ "/" ++ LOGS_DIR) = true :=
        pyStartswith_append_iff.mpr hb
      rw [hh] at h2
      cases h2
  · rintro ⟨h1, h2⟩
    refine ⟨h1, ?_⟩
    cases hb : pyStartswith (folder ++ "/" ++ fname)
        (folder ++ "/" ++ LOGS_DIR) with
    | false => rfl
    | true =>
      rw [pyStartswith_append_iff.mp hb] at h2
      cases h2

theorem selectHistory_spec {s : FS} {last : String}
    (h : selectHistory s = some last) :
    pyStartswith last "history_" = true
    ∧ last ∈ listdir s [LOGS_DIR]
    ∧ ∀ m ∈ listdir s [LOGS_DIR],
        pyStartswith m "history_" = true → pyLe m last := by
  unfold selectHistory at h
  obtain ⟨hmem, hmax⟩ := pySorted_getLast?_spec h
  obtain ⟨hmem', hpre⟩ := List.mem_filter.mp hmem
  exact ⟨hpre, hmem', fun m hm hmp =>
    hmax m (List.mem_filter.mpr ⟨hm, hmp⟩)⟩

/-! ### Decomposition of `scan_and_organize` -/

theorem organizeFinish_wet {oracle : Nat → Bool} {ts : String}
    {actions A : List ActionRec} {s1 s' : FS}
    (h : organizeFinish oracle false ts actions s1 = .ok (A, s')) :
    A = actions
    ∧ s' = writeFile (performMoves oracle s1 actions 0)
        [LOGS_DIR, historyName ts] (Content.json actions)
    ∧ isdir (performMoves oracle s1 actions 0) [LOGS_DIR] = true := by
  unfold organizeFinish at h
  rw [if_neg (by simp)] at h
  split at h
  · next hcond =>
    injection h with h'
    cases h'
    exact ⟨rfl, rfl, ((Bool.and_eq_true _ _).mp hcond).1⟩
  · cases h

theorem scan_wet_spec {oracle : Nat → Bool} {folder pfx ts : String} {s : FS}
    {A : List ActionRec} {s' : FS}
    (h : scan_and_organize oracle folder s false pfx ts = .ok (A, s')) :
    ∃ s1, planLoop folder s (listdir s []) [] = .ok (A, s1)
      ∧ s' = writeFile (performMoves oracle s1 A 0)
          [LOGS_DIR, historyName ts] (Content.json A)
      ∧ isdir (performMoves oracle s1 A 0) [LOGS_DIR] = true := by
  unfold scan_and_organize at h
  cases hp : planLoop folder s (listdir s []) [] with
  | error e => rw [hp] at h; cases h
  | ok pr =>
    obtain ⟨actions, s1⟩ := pr
    rw [hp] at h
    dsimp only at h
    obtain ⟨hA, hs', hdir⟩ := organizeFinish_wet h
    subst hA
    exact ⟨s1, rfl, hs', hdir⟩

theorem scan_dry_spec {oracle : Nat → Bool} {folder pfx ts : String} {s : FS}
    {A : List ActionRec} {s' : FS}
    (h : scan_and_organize oracle folder s true pfx ts = .ok (A, s')) :
    planLoop folder s (listdir s []) [] = .ok (A, s') := by
  unfold scan_and_organize at h
  cases hp : planLoop folder s (listdir s []) [] with
  | error e => rw [hp] at h; cases h
  | ok pr =>
    obtain ⟨actions, s1⟩ := pr
    rw [hp] at h
    dsimp only at h
    unfold organizeFinish at h
    rw [if_pos rfl] at h
    injection h with h'
    cases h'
    rfl

/-! ### Claim theorems -/

/-- The all-successes oracle: no environmental `shutil.move` failure. -/
def ozero : Nat → Bool := fun _ => false

/-- An oracle making exactly the first move of a batch raise. -/
def ofail0 : Nat → Bool := fun i => decide (i = 0)

/-- Claim C1: in every log subdirectory holding at least one active
(`history_`-prefixed) file, undo's selection is an active history file, is
drawn from the log listing, is lexicographically greatest among the active
history files, and is never a file renamed to the undone form (for any input
name), across arbitrarily many prior organize passes and undos. -/
theorem C1_undo_selects_greatest_active {s : FS} {last : String}
    (h : selectHistory s = some last) :
    pyStartswith last "history_" = true
    ∧ last ∈ listdir s [LOGS_DIR]
    ∧ (∀ m ∈ listdir s [LOGS_DIR],
        pyStartswith m "history_" = true → pyLe m last)
    ∧ (∀ g, pyStartswith g "history_" = true → last ≠ undoneName g) := by
  obtain ⟨h1, h2, h3⟩ := selectHistory_spec h
  exact ⟨h1, h2, h3, fun g hg =>
    startswith_history_ne_undone h1 (undoneName_startswith hg)⟩

/-- Log directory with two active history files and one undone file. -/
def c1state : FS :=
  { files := [([LOGS_DIR, "history_20250101T000000Z.json"], Content.json []),
              ([LOGS_DIR, "history_20250102T000000Z.json"], Content.json []),
              ([LOGS_DIR, "undone_20250103T000000Z.json"], Content.json []),
              ([LOGS_DIR, "organizer.log"], Content.blob)],
    dirs := [[LOGS_DIR]] }

/-- Witness instantiating C1 on `c1state`: the newest active history is
selected, not the (lexicographically greater) undone file. -/
theorem C1_witness :
    pyStartswith "history_20250102T000000Z.json" "history_" = true
    ∧ "history_20250102T000000Z.json" ∈ listdir c1state [LOGS_DIR]
    ∧ (∀ m ∈ listdir c1state [LOGS_DIR],
        pyStartswith m "history_" = true →
          pyLe m "history_20250102T000000Z.json")
    ∧ (∀ g, pyStartswith g "history_" = true →
        "history_20250102T000000Z.json" ≠ undoneName g) :=
  C1_undo_selects_greatest_active (by decide)

/-- One regular file next to the log directory; no `txt` directory yet. -/
def c3state : FS :=
  { files := [(["a.txt"], Content.blob)], dirs := [[LOGS_DIR]] }

/-- Claim C3 counterexample: a dry-run pass on `c3state` computes the
expected plan but nevertheless creates the category directory `txt`
(`os.makedirs` runs during the scan, before the dry-run check), refuting
"performs no filesystem mutation of any kind (no directory creation)". -/
theorem C3_counterexample :
    scan_and_organize ozero "/t" c3state true "" "20250101T000000Z"
      = .ok ([{ src := ["a.txt"], dst := ["txt", "a.txt"] }],
          { files := [(["a.txt"], Content.blob)],
            dirs := [[LOGS_DIR], ["txt"]] })
    ∧ ["txt"] ∉ c3state.dirs := by decide

/-- Claim C3 (amended): dry-run organize computes the identical plan to a
non-dry-run pass on the same input, performs no file moves and writes no
history file (the file entries are exactly the input's), but it does create
the destination category directories during planning, as a non-dry-run pass
also does. -/
theorem C3_dry_run_same_plan_no_file_mutation {oracle : Nat → Bool}
    {folder pfx ts : String} {s : FS} {A₁ A₂ : List ActionRec} {s₁ s₂ : FS}
    (hdry : scan_and_organize oracle folder s true pfx ts = .ok (A₁, s₁))
    (hwet : scan_and_organize oracle folder s false pfx ts = .ok (A₂, s₂)) :
    A₁ = A₂ ∧ s₁.files = s.files := by
  have hd := scan_dry_spec hdry
  obtain ⟨s1w, hpw, _⟩ := scan_wet_spec hwet
  rw [hd] at hpw
  injection hpw with h'
  have hA : A₁ = A₂ := congrArg Prod.fst h'
  exact ⟨hA, (planLoop_spec folder _ s [] hd).2.1⟩

/-- Witness instantiating the amended C3 on `c3state`. -/
theorem C3_witness :
    ([{ src := ["a.txt"], dst := ["txt", "a.txt"] }] : List ActionRec)
      = [{ src := ["a.txt"], dst := ["txt", "a.txt"] }]
    ∧ (FS.mk [(["a.txt"], Content.blob)] [[LOGS_DIR], ["txt"]]).files
        = c3state.files :=
  @C3_dry_run_same_plan_no_file_mutation ozero "/t" "" "20250101T000000Z"
    c3state
    [{ src := ["a.txt"], dst := ["txt", "a.txt"] }]
    [{ src := ["a.txt"], dst := ["txt", "a.txt"] }]
    (FS.mk [(["a.txt"], Content.blob)] [[LOGS_DIR], ["txt"]])
    (FS.mk [(["txt", "a.txt"], Content.blob),
            ([LOGS_DIR, "history_20250101T000000Z.json"],
             Content.json [{ src := ["a.txt"], dst := ["txt", "a.txt"] }])]
           [[LOGS_DIR], ["txt"]])
    (by decide) (by decide)

/-- Claim C4: for any environmental-failure pattern (`oracle` arbitrary), a
completed non-dry-run pass serializes the complete originally planned action
list to the history file — not only the successful subset — and the move
phase decomposes over any split of the batch, i.e. the moves after any prefix
(failures included) are still attempted. -/
theorem C4_failure_tolerant_full_history {oracle : Nat → Bool}
    {folder pfx ts : String} {s : FS} {A : List ActionRec} {s' : FS}
    (h : scan_and_organize oracle folder s false pfx ts = .ok (A, s')) :
    lookupFile s' [LOGS_DIR, historyName ts] = some (Content.json A)
    ∧ ∀ (l₁ l₂ : List ActionRec) (t : FS) (i : Nat),
        performMoves oracle t (l₁ ++ l₂) i
          = performMoves oracle (performMoves oracle t l₁ i) l₂
              (i + l₁.length) := by
  obtain ⟨s1, hp, hs', _⟩ := scan_wet_spec h
  subst hs'
  exact ⟨lookupFile_writeFile_self _ _ _, performMoves_append oracle⟩

/-- Two regular files; with `ofail0` the first move raises and is caught. -/
def c4state : FS :=
  { files := [(["a.txt"], Content.blob), (["b.txt"], Content.blob)],
    dirs := [[LOGS_DIR]] }

/-- Witness instantiating C4 on `c4state` with the first move failing: the
second move still ran and the history holds both planned actions. -/
theorem C4_witness :
    lookupFile
      (FS.mk [(["a.txt"], Content.blob),
              (["txt", "b.txt"], Content.blob),
              ([LOGS_DIR, "history_20250101T000000Z.json"],
               Content.json
                 [{ src := ["a.txt"], dst := ["txt", "a.txt"] },
                  { src := ["b.txt"], dst := ["txt", "b.txt"] }])]
             [[LOGS_DIR], ["txt"]])
      [LOGS_DIR, historyName "20250101T000000Z"]
      = some (Content.json
          [{ src := ["a.txt"], dst := ["txt", "a.txt"] },
           { src := ["b.txt"], dst := ["txt", "b.txt"] }])
    ∧ ∀ (l₁ l₂ : List ActionRec) (t : FS) (i : Nat),
        performMoves ofail0 t (l₁ ++ l₂) i
          = performMoves ofail0 (performMoves ofail0 t l₁ i) l₂
              (i + l₁.length) :=
  @C4_failure_tolerant_full_history ofail0 "/t" "" "20250101T000000Z"
    c4state
    [{ src := ["a.txt"], dst := ["txt", "a.txt"] },
     { src := ["b.txt"], dst := ["txt", "b.txt"] }]
    (FS.mk [(["a.txt"], Content.blob),
            (["txt", "b.txt"], Content.blob),
            ([LOGS_DIR, "history_20250101T000000Z.json"],
             Content.json
               [{ src := ["a.txt"], dst := ["txt", "a.txt"] },
                { src := ["b.txt"], dst := ["txt", "b.txt"] }])]
           [[LOGS_DIR], ["txt"]])
    (by decide)

/-- A regular file whose name has the log-directory name as a proper string
prefix: it is not the log subdirectory, yet the scan guard excludes it. -/
def c6state : FS :=
  { files := [([".aioffice_logsx"], Content.blob)], dirs := [[LOGS_DIR]] }

/-- Claim C6 counterexample: `.aioffice_logsx` is a top-level regular file
distinct from the reserved log subdirectory (and not inside it), yet a
non-dry-run organize pass plans nothing for it — the plan is empty — because
the exclusion test is a string-prefix test on the absolute path. -/
theorem C6_counterexample :
    isfile c6state [".aioffice_logsx"] = true
    ∧ ([".aioffice_logsx"] : FPath) ≠ [LOGS_DIR]
    ∧ scan_and_organize ozero "/t" c6state false "" "20250101T000000Z"
        = .ok ([],
            FS.mk [([".aioffice_logsx"], Content.blob),
                   ([LOGS_DIR, "history_20250101T000000Z.json"],
                    Content.json [])]
                  [[LOGS_DIR]]) := by decide

/-- Claim C6 (amended): every top-level regular file whose name does not have
`.aioffice_logs` as a string prefix is planned into the subfolder named by
its lowercase extension (`no_ext` when there is none); files whose names do
carry that prefix are omitted from the plan even when they are not the log
subdirectory itself. -/
theorem C6_extension_routing {oracle : Nat → Bool} {folder pfx ts : String}
    {dr : Bool} {s : FS} {A : List ActionRec} {s' : FS}
    (h : scan_and_organize oracle folder s dr pfx ts = .ok (A, s')) :
    ∀ fname ∈ listdir s [], isfile s [fname] = true →
      (pyStartswith fname LOGS_DIR = false →
        { src := [fname], dst := [extOf fname, fname] } ∈ A)
      ∧ (pyStartswith fname LOGS_DIR = true →
          ∀ act ∈ A, act.src ≠ [fname]) := by
  have hA : A = planActions folder s (listdir s []) := by
    cases dr with
    | true =>
      have hp := scan_dry_spec h
      have := (planLoop_spec folder _ s [] hp).1
      rw [this, List.nil_append]
    | false =>
      obtain ⟨s1, hp, _⟩ := scan_wet_spec h
      have := (planLoop_spec folder _ s [] hp).1
      rw [this, List.nil_append]
  subst hA
  intro fname hmem hfile
  constructor
  · intro hnp
    exact mem_planActions.mpr
      ⟨fname, hmem, planCond_iff.mpr ⟨hfile, hnp⟩, rfl⟩
  · intro hpp act hact hsrc
    obtain ⟨fn, _, hcfn, rfl⟩ := mem_planActions.mp hact
    have hfn : fn = fname := by
      simpa using hsrc
    rw [hfn] at hcfn
    rw [(planCond_iff.mp hcfn).2] at hpp
    cases hpp

/-- Witness instantiating the amended C6 on `c3state` at the concrete file
`a.txt`: its planned action, routed by `extOf`, is in the computed plan. -/
theorem C6_witness :
    ({ src := ["a.txt"], dst := [extOf "a.txt", "a.txt"] } : ActionRec)
      ∈ [({ src := (["a.txt"] : FPath),
            dst := (["txt", "a.txt"] : FPath) } : ActionRec)] :=
  (@C6_extension_routing ozero "/t" "" "20250101T000000Z" true c3state
    [{ src := ["a.txt"], dst := ["txt", "a.txt"] }]
    (FS.mk [(["a.txt"], Content.blob)] [[LOGS_DIR], ["txt"]])
    (by decide) "a.txt" (by decide) (by decide)).1 (by decide)

/-- Claim C7: the `--prefix` value has no effect on any observable behavior
of organize — the result (plan, final state, persisted history, error
outcome) is syntactically independent of the prefix argument. -/
theorem C7_prefix_has_no_effect (oracle : Nat → Bool) (folder : String)
    (s : FS) (dr : Bool) (ts p₁ p₂ : String) :
    scan_and_organize oracle folder s dr p₁ ts
      = scan_and_organize oracle folder s dr p₂ ts := rfl

/-- A log directory whose single active history file holds malformed JSON. -/
def c8state : FS :=
  { files := [([LOGS_DIR, "history_20250101T000000Z.json"], Content.blob)],
    dirs := [[LOGS_DIR]] }

/-- Claim C8 counterexample: `undo` on a malformed history file raises an
uncaught `json.JSONDecodeError` (the `json.load` sits outside every `try`),
so not every filesystem failure is caught — the claimed totality fails. -/
theorem C8_counterexample :
    (undo_last ozero c8state).1 = UndoOutcome.parseRaised
    ∧ (undo_last ozero c8state).2 = c8state := by decide

/-- Claim C8 (amended): per-action failures during undo's restore loop are
caught and do not abort the batch (for any failure oracle the loop totals and
decomposes over any split), and when the selected history file parses, undo
completes normally: it replays, renames the history file, and returns; but
the parse itself (and organize's scan-time `os.makedirs` and history `open`)
sit outside any handler and are the operations that can raise uncaught. -/
theorem C8_failures_caught_inside_loops {oracle : Nat → Bool} {s : FS}
    {last : String} {acts : List ActionRec}
    (hdir : isdir s [LOGS_DIR] = true)
    (hsel : selectHistory s = some last)
    (hread : readJson s [LOGS_DIR, last] = .ok acts) :
    undo_last oracle s
      = (.ok acts, renameFile (restoreLoop oracle s acts 0)
          [LOGS_DIR, last] [LOGS_DIR, undoneName last])
    ∧ ∀ (l₁ l₂ : List ActionRec) (t : FS) (i : Nat),
        restoreLoop oracle t (l₁ ++ l₂) i
          = restoreLoop oracle (restoreLoop oracle t l₁ i) l₂
              (i + l₁.length) := by
  refine ⟨?_, restoreLoop_append oracle⟩
  unfold undo_last
  rw [hdir, hsel]
  simp only [Bool.not_true]
  rw [if_neg Bool.false_ne_true]
  rw [hread]

/-- A log directory with one parseable (empty) active history file. -/
def c8wstate : FS :=
  { files := [([LOGS_DIR, "history_20250101T000000Z.json"],
               Content.json [])],
    dirs := [[LOGS_DIR]] }

/-- Witness instantiating the amended C8 on `c8wstate`. -/
theorem C8_witness :
    undo_last ozero c8wstate
      = (.ok [], renameFile (restoreLoop ozero c8wstate [] 0)
          [LOGS_DIR, "history_20250101T000000Z.json"]
          [LOGS_DIR, undoneName "history_20250101T000000Z.json"])
    ∧ ∀ (l₁ l₂ : List ActionRec) (t : FS) (i : Nat),
        restoreLoop ozero t (l₁ ++ l₂) i
          = restoreLoop ozero (restoreLoop ozero t l₁ i) l₂
              (i + l₁.length) :=
  C8_failures_caught_inside_loops (by decide) (by decide) (by decide)

/-! ### Entry-level frame lemmas and miscellaneous facts -/

theorem entry_removeFile {s : FS} {p q : FPath} {c : Content} :
    (p, c) ∈ (removeFile s q).files ↔ (p, c) ∈ s.files ∧ p ≠ q := by
  unfold removeFile
  simp only [List.mem_filter, decide_eq_true_eq]

theorem entry_writeFile {s : FS} {p q : FPath} {c c' : Content} :
    (p, c) ∈ (writeFile s q c').files ↔
      (p ≠ q ∧ (p, c) ∈ s.files) ∨ (p = q ∧ c = c') := by
  unfold writeFile
  by_cases hb : s.files.any (fun e => decide (e.1 = q)) = true
  · rw [if_pos hb]
    simp only [List.mem_map]
    constructor
    · rintro ⟨e, he, hfe⟩
      by_cases heq : e.1 = q
      · rw [if_pos heq] at hfe
        injection hfe with h1 h2
        exact Or.inr ⟨h1.symm, h2.symm⟩
      · rw [if_neg heq] at hfe
        subst hfe
        exact Or.inl ⟨heq, he⟩
    · rintro (⟨hne, hmem⟩ | ⟨rfl, rfl⟩)
      · exact ⟨(p, c), hmem, by rw [if_neg hne]⟩
      · obtain ⟨e, he, hq⟩ := List.any_eq_true.mp hb
        simp only [decide_eq_true_eq] at hq
        exact ⟨e, he, by rw [if_pos hq]⟩
  · rw [if_neg hb]
    simp only [List.mem_append, List.mem_singleton]
    constructor
    · rintro (h | h)
      · by_cases hpq : p = q
        · subst hpq
          exact absurd (List.any_eq_true.mpr ⟨(p, c), h, by simp⟩) hb
        · exact Or.inl ⟨hpq, h⟩
      · injection h with h1 h2
        exact Or.inr ⟨h1, h2⟩
    · rintro (⟨hne, hmem⟩ | ⟨rfl, rfl⟩)
      · exact Or.inl hmem
      · exact Or.inr rfl

theorem pathExists_false_iff {s : FS} {p : FPath} :
    pathExists s p = false ↔ isfile s p = false ∧ isdir s p = false := by
  unfold pathExists
  exact Bool.or_eq_false_iff

theorem isdir_eq_of_dirs {s t : FS} (h : t.dirs = s.dirs) (p : FPath) :
    isdir t p = isdir s p := by
  unfold isdir
  rw [h]

theorem isfile_eq_of_lookup {s t : FS} {p : FPath}
    (h : lookupFile t p = lookupFile s p) : isfile t p = isfile s p := by
  unfold isfile
  rw [h]

theorem isdir_nil (s : FS) : isdir s [] = true := rfl

theorem pyLe_of_strLt {a b : String} (h : pyStrLt a b = true) : pyLe a b :=
  chLt_asymm h

theorem historyName_startswith (ts : String) :
    pyStartswith (historyName ts) "history_" = true := by
  refine pyStartswith_iff.mpr ?_
  unfold historyName
  rw [String.data_append, String.data_append, List.append_assoc]
  exact List.prefix_append _ _

theorem lookup_renameFile_other {s : FS} {p q r : FPath}
    (h1 : r ≠ p) (h2 : r ≠ q) :
    lookupFile (renameFile s p q) r = lookupFile s r := by
  unfold renameFile
  cases hl : lookupFile s p with
  | none => rfl
  | some c => rw [lookupFile_writeFile_ne _ _ h2, lookupFile_removeFile_ne _ h1]

theorem head?_dropWhile_not (p : Char → Bool) :
    ∀ (l : List Char) {c : Char}, ((l.dropWhile p).head? = some c) →
      p c = false
  | [], c, h => by cases h
  | a :: l, c, h => by
    by_cases ha : p a = true
    · rw [List.dropWhile_cons_of_pos ha] at h
      exact head?_dropWhile_not p l h
    · rw [List.dropWhile_cons_of_neg ha] at h
      injection h with h'
      rw [← h']
      simpa using ha

theorem extOf_head_not_dot {f : String} {c : Char}
    (h : (extOf f).data.head? = some c) (hne : extOf f ≠ "no_ext") :
    c ≠ '.' := by
  unfold extOf at h hne
  set x := strLower (splitextExt f) with hx
  by_cases he : pyStripDots x = ""
  · rw [if_pos he] at hne
    exact absurd rfl hne
  · rw [if_neg he] at h
    unfold pyStripDots at h
    set m := x.data.dropWhile (fun c => c = '.') with hm
    set u := m.reverse.dropWhile (fun c => c = '.') with hu
    have hpre : u.reverse <+: m := by
      have hsuf : u <:+ m.reverse := List.dropWhile_suffix _
      have := List.reverse_prefix.mpr hsuf
      rwa [List.reverse_reverse] at this
    obtain ⟨tail, htail⟩ := hpre
    have hne' : u.reverse ≠ [] := by
      intro hnil
      apply he
      unfold pyStripDots
      rw [← hm, ← hu, hnil]
    obtain ⟨c0, u', hu'⟩ : ∃ c0 u', u.reverse = c0 :: u' := by
      cases hcu : u.reverse with
      | nil => exact absurd hcu hne'
      | cons c0 u' => exact ⟨c0, u', rfl⟩
    have hc0 : c = c0 := by
      have h2 : u.reverse.head? = some c := h
      rw [hu'] at h2
      simp only [List.head?_cons] at h2
      injection h2 with h3
      exact h3.symm
    have hmhead : m.head? = some c0 := by
      rw [← htail, hu']
      rfl
    have hpc0 : decide (c0 = '.') = false :=
      head?_dropWhile_not (fun ch => decide (ch = '.')) x.data (hm ▸ hmhead)
    simp only [decide_eq_false_iff_not] at hpc0
    rw [hc0]
    exact hpc0

theorem extOf_ne_LOGS_DIR (f : String) : extOf f ≠ LOGS_DIR := by
  intro h
  by_cases hn : extOf f = "no_ext"
  · rw [hn] at h
    exact absurd h (by decide)
  · have hhead : (extOf f).data.head? = some '.' := by
      rw [h]
      rfl
    exact extOf_head_not_dot hhead hn rfl

/-- The normal-completion equation for `undo_last`: with the log directory
present, a selected history file, and parseable content, undo replays the
actions and renames the history file. -/
theorem undo_last_eq {oracle : Nat → Bool} {s : FS} {last : String}
    {acts : List ActionRec}
    (hdir : isdir s [LOGS_DIR] = true)
    (hsel : selectHistory s = some last)
    (hread : readJson s [LOGS_DIR, last] = .ok acts) :
    undo_last oracle s
      = (.ok acts, renameFile (restoreLoop oracle s acts 0)
          [LOGS_DIR, last] [LOGS_DIR, undoneName last]) := by
  unfold undo_last
  rw [hdir, hsel]
  simp only [Bool.not_true]
  rw [if_neg Bool.false_ne_true]
  rw [hread]

/-! ### Execution of a well-formed plan with no failures -/

theorem shutilMove_flat {t : FS} {src dst : FPath} {c : Content}
    (hd : isdir t dst = false) (hp : isdir t dst.dropLast = true)
    (hl : lookupFile t src = some c) :
    shutilMove t src dst = .ok (writeFile (removeFile t src) dst c) := by
  unfold shutilMove
  rw [if_neg (by rw [hd]; exact Bool.false_ne_true), if_pos hp, hl]

theorem moveStep_flat {t : FS} {act : ActionRec} {c : Content}
    (hd : isdir t act.dst = false) (hp : isdir t act.dst.dropLast = true)
    (hl : lookupFile t act.src = some c) :
    moveStep t act = writeFile (removeFile t act.src) act.dst c := by
  unfold moveStep
  rw [shutilMove_flat hd hp hl]

theorem ozero_false (i : Nat) : ozero i = false := rfl

theorem restoreStepO_flat (i : Nat) {t : FS} {act : ActionRec} {c : Content}
    (hs1 : act.src.dropLast = [])
    (hex : pathExists t act.dst = true)
    (htgt : isdir t act.src = false)
    (hl : lookupFile t act.dst = some c) :
    restoreStepO ozero i t act
      = writeFile (removeFile t act.dst) act.src c := by
  unfold restoreStepO
  rw [hex, if_pos rfl, hs1, makedirs_nil]
  show (if ozero i = true then t
    else match shutilMove t act.dst act.src with
      | .ok s2 => s2
      | .error _ => t) = writeFile (removeFile t act.dst) act.src c
  rw [ozero_false, if_neg Bool.false_ne_true,
    shutilMove_flat htgt (by rw [hs1]; exact isdir_nil t) hl]

theorem moveAll_spec :
    ∀ (A : List ActionRec) (t : FS) (i : Nat),
      (∀ act ∈ A, act.src.length = 1 ∧ act.dst.length = 2) →
      (∀ act ∈ A, isfile t act.src = true) →
      (∀ act ∈ A, pathExists t act.dst = false) →
      (∀ act ∈ A, isdir t act.dst.dropLast = true) →
      List.Pairwise (fun a b => a.src ≠ b.src ∧ a.dst ≠ b.dst) A →
      (∀ act ∈ A,
        lookupFile (performMoves ozero t A i) act.dst = lookupFile t act.src
        ∧ isfile (performMoves ozero t A i) act.src = false)
      ∧ (∀ p, (∀ act ∈ A, p ≠ act.src ∧ p ≠ act.dst) →
          lookupFile (performMoves ozero t A i) p = lookupFile t p)
      ∧ (∀ p c, (∀ act ∈ A, p ≠ act.src ∧ p ≠ act.dst) →
          ((p, c) ∈ (performMoves ozero t A i).files ↔ (p, c) ∈ t.files))
  | [], t, i, _, _, _, _, _ =>
    ⟨fun act h => absurd h (List.not_mem_nil _), fun p _ => rfl,
      fun p c _ => Iff.rfl⟩
  | act :: rest, t, i, hshape, hsrc, hdst, hpar, hpw => by
    have hshape0 := hshape act (List.mem_cons_self _ _)
    have hsd : act.src ≠ act.dst := by
      intro hh
      rw [hh] at hshape0
      omega
    obtain ⟨c, hc⟩ := isfile_true_iff.mp (hsrc act (List.mem_cons_self _ _))
    have hdst0 := pathExists_false_iff.mp (hdst act (List.mem_cons_self _ _))
    have hstep : performMoves ozero t (act :: rest) i
        = performMoves ozero (writeFile (removeFile t act.src) act.dst c)
            rest (i + 1) := by
      show performMoves ozero (moveStepO ozero i t act) rest (i + 1) = _
      rw [show moveStepO ozero i t act = moveStep t act from rfl,
        moveStep_flat hdst0.2 (hpar act (List.mem_cons_self _ _)) hc]
    set t1 := writeFile (removeFile t act.src) act.dst c with ht1
    have hlen_ne : ∀ a ∈ act :: rest, ∀ b ∈ act :: rest, a.src ≠ b.dst := by
      intro a ha b hb hab
      have h1 := (hshape a ha).1
      have h2 := (hshape b hb).2
      rw [hab] at h1
      omega
    have hpwh := List.pairwise_cons.mp hpw
    have hlf : ∀ p, p ≠ act.src → p ≠ act.dst →
        lookupFile t1 p = lookupFile t p := by
      intro p h1 h2
      rw [ht1, lookupFile_writeFile_ne _ _ h2, lookupFile_removeFile_ne _ h1]
    have hef : ∀ p c', p ≠ act.src → p ≠ act.dst →
        ((p, c') ∈ t1.files ↔ (p, c') ∈ t.files) := by
      intro p c' h1 h2
      rw [ht1]
      rw [entry_writeFile]
      constructor
      · rintro (⟨_, hmem⟩ | ⟨heq, _⟩)
        · exact (entry_removeFile.mp hmem).1
        · exact absurd heq h2
      · intro hmem
        exact Or.inl ⟨h2, entry_removeFile.mpr ⟨hmem, h1⟩⟩
    have hdirs1 : t1.dirs = t.dirs := by
      rw [ht1, dirs_writeFile, dirs_removeFile]
    have hrest_ne : ∀ b ∈ rest, b.src ≠ act.src ∧ b.src ≠ act.dst
        ∧ b.dst ≠ act.src ∧ b.dst ≠ act.dst := by
      intro b hb
      have hpb := hpwh.1 b hb
      refine ⟨fun hh => hpb.1 hh.symm,
        hlen_ne b (List.mem_cons_of_mem _ hb) act (List.mem_cons_self _ _),
        fun hh => hlen_ne act (List.mem_cons_self _ _) b
          (List.mem_cons_of_mem _ hb) hh.symm,
        fun hh => hpb.2 hh.symm⟩
    have hsrc1 : ∀ b ∈ rest, isfile t1 b.src = true := by
      intro b hb
      have hne := hrest_ne b hb
      rw [isfile_eq_of_lookup (hlf b.src hne.1 hne.2.1)]
      exact hsrc b (List.mem_cons_of_mem _ hb)
    have hdst1 : ∀ b ∈ rest, pathExists t1 b.dst = false := by
      intro b hb
      have hne := hrest_ne b hb
      have h0 := pathExists_false_iff.mp (hdst b (List.mem_cons_of_mem _ hb))
      refine pathExists_false_iff.mpr ⟨?_, ?_⟩
      · rw [isfile_eq_of_lookup (hlf b.dst hne.2.2.1 hne.2.2.2)]
        exact h0.1
      · rw [isdir_eq_of_dirs hdirs1]
        exact h0.2
    have hpar1 : ∀ b ∈ rest, isdir t1 b.dst.dropLast = true := by
      intro b hb
      rw [isdir_eq_of_dirs hdirs1]
      exact hpar b (List.mem_cons_of_mem _ hb)
    have hshape1 : ∀ b ∈ rest, b.src.length = 1 ∧ b.dst.length = 2 :=
      fun b hb => hshape b (List.mem_cons_of_mem _ hb)
    obtain ⟨ih1, ih2, ih3⟩ :=
      moveAll_spec rest t1 (i + 1) hshape1 hsrc1 hdst1 hpar1 hpwh.2
    rw [hstep]
    refine ⟨?_, ?_, ?_⟩
    · intro b hb
      rcases List.mem_cons.mp hb with rfl | hb'
      · constructor
        · have hfr := ih2 b.dst (fun a ha =>
            ⟨fun hh => (hrest_ne a ha).2.1 hh.symm,
             fun hh => (hrest_ne a ha).2.2.2 hh.symm⟩)
          rw [hfr, ht1, lookupFile_writeFile_self]
          exact hc.symm
        · have hfr := ih2 b.src (fun a ha =>
            ⟨fun hh => (hrest_ne a ha).1 hh.symm,
             fun hh => (hrest_ne a ha).2.2.1 hh.symm⟩)
          rw [isfile_eq_of_lookup hfr]
          have hnone : lookupFile t1 b.src = none := by
            rw [ht1, lookupFile_writeFile_ne _ _ hsd,
              lookupFile_removeFile_self]
          unfold isfile
          rw [hnone]
          rfl
      · obtain ⟨ha, hb2⟩ := ih1 b hb'
        have hne := hrest_ne b hb'
        exact ⟨ha.trans (hlf b.src hne.1 hne.2.1), hb2⟩
    · intro p hp
      have hph := hp act (List.mem_cons_self _ _)
      rw [ih2 p (fun a ha => hp a (List.mem_cons_of_mem _ ha)),
        hlf p hph.1 hph.2]
    · intro p c' hp
      have hph := hp act (List.mem_cons_self _ _)
      rw [ih3 p c' (fun a ha => hp a (List.mem_cons_of_mem _ ha))]
      exact hef p c' hph.1 hph.2

theorem restoreAll_spec :
    ∀ (A : List ActionRec) (t : FS) (i : Nat),
      (∀ act ∈ A, act.src.length = 1 ∧ act.dst.length = 2) →
      (∀ act ∈ A, isfile t act.dst = true) →
      (∀ act ∈ A, isfile t act.src = false) →
      (∀ act ∈ A, isdir t act.src = false) →
      List.Pairwise (fun a b => a.src ≠ b.src ∧ a.dst ≠ b.dst) A →
      (∀ act ∈ A,
        lookupFile (restoreLoop ozero t A i) act.src = lookupFile t act.dst
        ∧ isfile (restoreLoop ozero t A i) act.dst = false)
      ∧ (∀ p, (∀ act ∈ A, p ≠ act.src ∧ p ≠ act.dst) →
          lookupFile (restoreLoop ozero t A i) p = lookupFile t p)
      ∧ (∀ p c, (∀ act ∈ A, p ≠ act.src ∧ p ≠ act.dst) →
          ((p, c) ∈ (restoreLoop ozero t A i).files ↔ (p, c) ∈ t.files))
      ∧ (restoreLoop ozero t A i).dirs = t.dirs
  | [], t, i, _, _, _, _, _ =>
    ⟨fun act h => absurd h (List.not_mem_nil _), fun p _ => rfl,
      fun p c _ => Iff.rfl, rfl⟩
  | act :: rest, t, i, hshape, hdstf, hsrcf, hsrcd, hpw => by
    have hshape0 := hshape act (List.mem_cons_self _ _)
    have hsd : act.src ≠ act.dst := by
      intro hh
      rw [hh] at hshape0
      omega
    obtain ⟨c, hc⟩ := isfile_true_iff.mp (hdstf act (List.mem_cons_self _ _))
    have hs1 : act.src.dropLast = [] := by
      obtain ⟨x, hx⟩ := List.length_eq_one.mp hshape0.1
      rw [hx]
      rfl
    have hex : pathExists t act.dst = true := by
      unfold pathExists
      rw [hdstf act (List.mem_cons_self _ _)]
      rfl
    have hstep : restoreLoop ozero t (act :: rest) i
        = restoreLoop ozero (writeFile (removeFile t act.dst) act.src c)
            rest (i + 1) := by
      show restoreLoop ozero (restoreStepO ozero i t act) rest (i + 1) = _
      rw [restoreStepO_flat i hs1 hex (hsrcd act (List.mem_cons_self _ _)) hc]
    set t1 := writeFile (removeFile t act.dst) act.src c with ht1
    have hlen_ne : ∀ a ∈ act :: rest, ∀ b ∈ act :: rest, a.src ≠ b.dst := by
      intro a ha b hb hab
      have h1 := (hshape a ha).1
      have h2 := (hshape b hb).2
      rw [hab] at h1
      omega
    have hpwh := List.pairwise_cons.mp hpw
    have hlf : ∀ p, p ≠ act.src → p ≠ act.dst →
        lookupFile t1 p = lookupFile t p := by
      intro p h1 h2
      rw [ht1, lookupFile_writeFile_ne _ _ h1, lookupFile_removeFile_ne _ h2]
    have hef : ∀ p c', p ≠ act.src → p ≠ act.dst →
        ((p, c') ∈ t1.files ↔ (p, c') ∈ t.files) := by
      intro p c' h1 h2
      rw [ht1]
      rw [entry_writeFile]
      constructor
      · rintro (⟨_, hmem⟩ | ⟨heq, _⟩)
        · exact (entry_removeFile.mp hmem).1
        · exact absurd heq h1
      · intro hmem
        exact Or.inl ⟨h1, entry_removeFile.mpr ⟨hmem, h2⟩⟩
    have hdirs1 : t1.dirs = t.dirs := by
      rw [ht1, dirs_writeFile, dirs_removeFile]
    have hrest_ne : ∀ b ∈ rest, b.src ≠ act.src ∧ b.src ≠ act.dst
        ∧ b.dst ≠ act.src ∧ b.dst ≠ act.dst := by
      intro b hb
      have hpb := hpwh.1 b hb
      refine ⟨fun hh => hpb.1 hh.symm,
        hlen_ne b (List.mem_cons_of_mem _ hb) act (List.mem_cons_self _ _),
        fun hh => hlen_ne act (List.mem_cons_self _ _) b
          (List.mem_cons_of_mem _ hb) hh.symm,
        fun hh => hpb.2 hh.symm⟩
    have hdstf1 : ∀ b ∈ rest, isfile t1 b.dst = true := by
      intro b hb
      have hne := hrest_ne b hb
      rw [isfile_eq_of_lookup (hlf b.dst hne.2.2.1 hne.2.2.2)]
      exact hdstf b (List.mem_cons_of_mem _ hb)
    have hsrcf1 : ∀ b ∈ rest, isfile t1 b.src = false := by
      intro b hb
      have hne := hrest_ne b hb
      rw [isfile_eq_of_lookup (hlf b.src hne.1 hne.2.1)]
      exact hsrcf b (List.mem_cons_of_mem _ hb)
    have hsrcd1 : ∀ b ∈ rest, isdir t1 b.src = false := by
      intro b hb
      rw [isdir_eq_of_dirs hdirs1]
      exact hsrcd b (List.mem_cons_of_mem _ hb)
    have hshape1 : ∀ b ∈ rest, b.src.length = 1 ∧ b.dst.length = 2 :=
      fun b hb => hshape b (List.mem_cons_of_mem _ hb)
    obtain ⟨ih1, ih2, ih3, ih4⟩ :=
      restoreAll_spec rest t1 (i + 1) hshape1 hdstf1 hsrcf1 hsrcd1 hpwh.2
    rw [hstep]
    refine ⟨?_, ?_, ?_, ih4.trans hdirs1⟩
    · intro b hb
      rcases List.mem_cons.mp hb with rfl | hb'
      · constructor
        · have hfr := ih2 b.src (fun a ha =>
            ⟨fun hh => (hrest_ne a ha).1 hh.symm,
             fun hh => (hrest_ne a ha).2.2.1 hh.symm⟩)
          rw [hfr, ht1, lookupFile_writeFile_self]
          exact hc.symm
        · have hfr := ih2 b.dst (fun a ha =>
            ⟨fun hh => (hrest_ne a ha).2.1 hh.symm,
             fun hh => (hrest_ne a ha).2.2.2 hh.symm⟩)
          rw [isfile_eq_of_lookup hfr]
          have hnone : lookupFile t1 b.dst = none := by
            rw [ht1, lookupFile_writeFile_ne _ _ (fun hh => hsd hh.symm),
              lookupFile_removeFile_self]
          unfold isfile
          rw [hnone]
          rfl
      · obtain ⟨ha, hb2⟩ := ih1 b hb'
        have hne := hrest_ne b hb'
        exact ⟨ha.trans (hlf b.dst hne.2.2.1 hne.2.2.2), hb2⟩
    · intro p hp
      have hph := hp act (List.mem_cons_self _ _)
      rw [ih2 p (fun a ha => hp a (List.mem_cons_of_mem _ ha)),
        hlf p hph.1 hph.2]
    · intro p c' hp
      have hph := hp act (List.mem_cons_self _ _)
      rw [ih3 p c' (fun a ha => hp a (List.mem_cons_of_mem _ ha))]
      exact hef p c' hph.1 hph.2

theorem planActions_pairwise {folder : String} {s : FS}
    {listing : List String} (h : listing.Nodup) :
    List.Pairwise (fun a b => a.src ≠ b.src ∧ a.dst ≠ b.dst)
      (planActions folder s listing) := by
  unfold planActions
  rw [List.pairwise_filterMap]
  refine h.imp ?_
  intro a b hab x hx y hy
  by_cases hca : planCond folder s a = true
  · rw [if_pos hca] at hx
    by_cases hcb : planCond folder s b = true
    · rw [if_pos hcb] at hy
      rw [Option.mem_def] at hx hy
      injection hx with hx'
      injection hy with hy'
      rw [← hx', ← hy']
      constructor
      · intro hh
        simp only [List.cons.injEq, and_true] at hh
        exact hab hh
      · intro hh
        simp only [List.cons.injEq] at hh
        exact hab hh.2.1
    · rw [if_neg hcb] at hy
      cases hy
  · rw [if_neg hca] at hx
    cases hx

/-- Claim C2: starting from a well-formed directory (no path both file and
directory, no duplicate listing entries, no pre-existing entry at any planned
destination — the formalization of "no external interference"), a completed
non-dry-run organize pass with no move failures (`ozero`), whose fresh
timestamp sorts strictly after every existing active history name, followed
immediately by undo, restores every moved file: undo completes returning the
recorded action list, and each planned source path holds exactly its original
content again. -/
theorem C2_organize_then_undo_roundtrip {folder pfx ts : String} {s : FS}
    {A : List ActionRec} {sOrg : FS}
    (h_wf : ∀ e ∈ s.files, e.1 ∉ s.dirs)
    (h_nodup : (listdir s []).Nodup)
    (h_scan : scan_and_organize ozero folder s false pfx ts = .ok (A, sOrg))
    (h_clean : ∀ act ∈ A, pathExists s act.dst = false)
    (h_fresh : ∀ f ∈ listdir s [LOGS_DIR],
        pyStartswith f "history_" = true →
          pyStrLt f (historyName ts) = true) :
    (undo_last ozero sOrg).1 = UndoOutcome.ok A
    ∧ ∀ act ∈ A, lookupFile (undo_last ozero sOrg).2 act.src
        = lookupFile s act.src := by
  obtain ⟨s1, hp, hsOrg, hdirlogs⟩ := scan_wet_spec h_scan
  obtain ⟨hA, hfiles1, hmono, hdirsch, hextch⟩ := planLoop_spec folder _ s [] hp
  rw [List.nil_append] at hA
  have hlook1 : ∀ p, lookupFile s1 p = lookupFile s p :=
    lookupFile_eq_of_files hfiles1
  have hmemA : ∀ act ∈ A, ∃ f, f ∈ listdir s [] ∧ planCond folder s f = true
      ∧ act = { src := [f], dst := [extOf f, f] } := by
    intro act hact
    rw [hA] at hact
    exact mem_planActions.mp hact
  have hshape : ∀ act ∈ A, act.src.length = 1 ∧ act.dst.length = 2 := by
    intro act hact
    obtain ⟨f, _, _, rfl⟩ := hmemA act hact
    exact ⟨rfl, rfl⟩
  have hpwA : List.Pairwise (fun a b => a.src ≠ b.src ∧ a.dst ≠ b.dst) A := by
    rw [hA]
    exact planActions_pairwise h_nodup
  have hsrc_s1 : ∀ act ∈ A, isfile s1 act.src = true := by
    intro act hact
    obtain ⟨f, _, hfc, rfl⟩ := hmemA act hact
    rw [isfile_eq_of_lookup (hlook1 _)]
    exact (planCond_iff.mp hfc).1
  have hdst_s1 : ∀ act ∈ A, pathExists s1 act.dst = false := by
    intro act hact
    have hcl := pathExists_false_iff.mp (h_clean act hact)
    obtain ⟨f, _, _, rfl⟩ := hmemA act hact
    refine pathExists_false_iff.mpr ⟨?_, ?_⟩
    · rw [isfile_eq_of_lookup (hlook1 _)]
      exact hcl.1
    · unfold isdir
      simp only [Bool.or_eq_false_iff, decide_eq_false_iff_not]
      refine ⟨by simp, ?_⟩
      intro hmem
      rcases hdirsch _ hmem with hds | ⟨fname, _, _, hlen⟩
      · unfold isdir at hcl
        have := hcl.2
        simp only [Bool.or_eq_false_iff, decide_eq_false_iff_not] at this
        exact this.2 hds
      · have := congrArg List.length hlen
        simp at this
  have hpar_s1 : ∀ act ∈ A, isdir s1 act.dst.dropLast = true := by
    intro act hact
    obtain ⟨f, hfl, hfc, rfl⟩ := hmemA act hact
    exact (hextch f hfl hfc).2
  obtain ⟨hmv1, hmv2, hmv3⟩ :=
    moveAll_spec A s1 0 hshape hsrc_s1 hdst_s1 hpar_s1 hpwA
  have hpath_ne : ∀ act ∈ A,
      ([LOGS_DIR, historyName ts] : FPath) ≠ act.src
      ∧ ([LOGS_DIR, historyName ts] : FPath) ≠ act.dst := by
    intro act hact
    obtain ⟨f, _, _, rfl⟩ := hmemA act hact
    constructor
    · intro hh
      have := congrArg List.length hh
      simp at this
    · intro hh
      simp only [List.cons.injEq] at hh
      exact extOf_ne_LOGS_DIR f hh.1.symm
  subst hsOrg
  have hlookOrg_h : lookupFile
      (writeFile (performMoves ozero s1 A 0) [LOGS_DIR, historyName ts]
        (Content.json A)) [LOGS_DIR, historyName ts]
      = some (Content.json A) := lookupFile_writeFile_self _ _ _
  set s2 := performMoves ozero s1 A 0 with hs2
  set sOrg := writeFile s2 [LOGS_DIR, historyName ts] (Content.json A)
    with hsOrg
  have hlookOrg : ∀ p, p ≠ [LOGS_DIR, historyName ts] →
      lookupFile sOrg p = lookupFile s2 p := by
    intro p hpne
    rw [hsOrg, lookupFile_writeFile_ne _ _ hpne]
  have hdirsOrg : sOrg.dirs = s2.dirs := by
    rw [hsOrg, dirs_writeFile]
  have hdirs2 : s2.dirs = s1.dirs := dirs_performMoves ozero A s1 0
  have hlogsOrg : isdir sOrg [LOGS_DIR] = true := by
    rw [isdir_eq_of_dirs hdirsOrg]
    exact hdirlogs
  have hselOrg : selectHistory sOrg = some (historyName ts) := by
    unfold selectHistory
    apply pySorted_getLast?_of_max
    · refine List.mem_filter.mpr ⟨?_, historyName_startswith ts⟩
      refine mem_listdir.mpr (Or.inl ⟨Content.json A, ?_⟩)
      exact lookupFile_entry hlookOrg_h
    · intro y hy
      obtain ⟨hy1, hy2⟩ := List.mem_filter.mp hy
      rcases mem_listdir.mp hy1 with ⟨cy, hcy⟩ | hdy
      · by_cases hyh : y = historyName ts
        · rw [hyh]
          exact pyLe_refl _
        · have hpne : ([LOGS_DIR] ++ [y] : FPath)
              ≠ [LOGS_DIR, historyName ts] := by
            intro hh
            simp only [List.cons_append, List.nil_append,
              List.cons.injEq, and_true] at hh
            exact hyh hh.2
          rw [hsOrg] at hcy
          rcases entry_writeFile.mp hcy with ⟨_, hmem2⟩ | ⟨heq, _⟩
          · have hunt : ∀ act ∈ A,
                ([LOGS_DIR] ++ [y] : FPath) ≠ act.src
                ∧ ([LOGS_DIR] ++ [y] : FPath) ≠ act.dst := by
              intro act hact
              obtain ⟨f, _, _, rfl⟩ := hmemA act hact
              constructor
              · intro hh
                have := congrArg List.length hh
                simp at this
              · intro hh
                simp only [List.cons_append, List.nil_append,
                  List.cons.injEq] at hh
                exact extOf_ne_LOGS_DIR f hh.1.symm
            have hmem1 := (hmv3 _ cy hunt).mp hmem2
            rw [hfiles1] at hmem1
            have hyls : y ∈ listdir s [LOGS_DIR] :=
              mem_listdir.mpr (Or.inl ⟨cy, hmem1⟩)
            exact pyLe_of_strLt (h_fresh y hyls hy2)
          · exact absurd heq hpne
      · rw [hdirsOrg, hdirs2] at hdy
        rcases hdirsch _ hdy with hds | ⟨fname, _, _, hlen⟩
        · have hyls : y ∈ listdir s [LOGS_DIR] :=
            mem_listdir.mpr (Or.inr hds)
          exact pyLe_of_strLt (h_fresh y hyls hy2)
        · have := congrArg List.length hlen
          simp at this
  have hreadOrg : readJson sOrg [LOGS_DIR, historyName ts] = .ok A := by
    unfold readJson
    rw [hlookOrg_h]
  have hdst_Org : ∀ act ∈ A, isfile sOrg act.dst = true := by
    intro act hact
    have hne := hpath_ne act hact
    rw [isfile_eq_of_lookup (hlookOrg act.dst (fun hh => hne.2 hh.symm))]
    unfold isfile
    rw [(hmv1 act hact).1, hlook1]
    obtain ⟨f, _, hfc, rfl⟩ := hmemA act hact
    exact (planCond_iff.mp hfc).1
  have hsrcf_Org : ∀ act ∈ A, isfile sOrg act.src = false := by
    intro act hact
    have hne := hpath_ne act hact
    rw [isfile_eq_of_lookup (hlookOrg act.src (fun hh => hne.1 hh.symm))]
    exact (hmv1 act hact).2
  have hsrcd_Org : ∀ act ∈ A, isdir sOrg act.src = false := by
    intro act hact
    obtain ⟨f, _, hfc, rfl⟩ := hmemA act hact
    rw [isdir_eq_of_dirs hdirsOrg, isdir_eq_of_dirs hdirs2]
    unfold isdir
    simp only [Bool.or_eq_false_iff, decide_eq_false_iff_not]
    refine ⟨by simp, ?_⟩
    intro hmem
    rcases hdirsch _ hmem with hds | ⟨fname, hfnl, hfnc, hlen⟩
    · have hisf := (planCond_iff.mp hfc).1
      obtain ⟨cf, hcf⟩ := isfile_true_iff.mp hisf
      exact h_wf _ (lookupFile_entry hcf) hds
    · have hisf := (planCond_iff.mp hfc).1
      have hnotf := (hextch fname hfnl hfnc).1
      rw [← hlen] at hnotf
      rw [hisf] at hnotf
      cases hnotf
  obtain ⟨hr1, hr2, hr3, hr4⟩ :=
    restoreAll_spec A sOrg 0 hshape hdst_Org hsrcf_Org hsrcd_Org hpwA
  have hu := @undo_last_eq ozero _ _ _ hlogsOrg hselOrg hreadOrg
  rw [hu]
  refine ⟨rfl, ?_⟩
  intro act hact
  have hshact := hshape act hact
  have hs_ne : act.src ≠ ([LOGS_DIR, historyName ts] : FPath) := by
    intro hh
    have := congrArg List.length hh
    rw [hshact.1] at this
    simp at this
  have hs_ne2 : act.src
      ≠ ([LOGS_DIR, undoneName (historyName ts)] : FPath) := by
    intro hh
    have := congrArg List.length hh
    rw [hshact.1] at this
    simp at this
  show lookupFile (renameFile (restoreLoop ozero sOrg A 0)
      [LOGS_DIR, historyName ts]
      [LOGS_DIR, undoneName (historyName ts)]) act.src
    = lookupFile s act.src
  rw [lookup_renameFile_other hs_ne hs_ne2]
  rw [(hr1 act hact).1]
  rw [hlookOrg act.dst (fun hh => (hpath_ne act hact).2 hh.symm)]
  rw [(hmv1 act hact).1, hlook1]

/-- The spec's worked example: `a.txt`, `b.TXT`, `c` beside the log dir. -/
def c2state : FS :=
  { files := [(["a.txt"], Content.blob), (["b.TXT"], Content.blob),
              (["c"], Content.blob)],
    dirs := [[LOGS_DIR]] }

/-- The state after a non-dry-run pass on `c2state` at a fixed timestamp. -/
def c2org : FS :=
  { files := [(["txt", "a.txt"], Content.blob),
              (["txt", "b.TXT"], Content.blob),
              (["no_ext", "c"], Content.blob),
              ([LOGS_DIR, "history_20250101T000000Z.json"],
               Content.json
                 [{ src := ["a.txt"], dst := ["txt", "a.txt"] },
                  { src := ["b.TXT"], dst := ["txt", "b.TXT"] },
                  { src := ["c"], dst := ["no_ext", "c"] }])],
    dirs := [[LOGS_DIR], ["txt"], ["no_ext"]] }

/-- Witness instantiating C2 on the spec's worked example. -/
theorem C2_witness :
    (undo_last ozero c2org).1 = UndoOutcome.ok
      [{ src := ["a.txt"], dst := ["txt", "a.txt"] },
       { src := ["b.TXT"], dst := ["txt", "b.TXT"] },
       { src := ["c"], dst := ["no_ext", "c"] }]
    ∧ ∀ act ∈ [({ src := ["a.txt"], dst := ["txt", "a.txt"] } : ActionRec),
               { src := ["b.TXT"], dst := ["txt", "b.TXT"] },
               { src := ["c"], dst := ["no_ext", "c"] }],
        lookupFile (undo_last ozero c2org).2 (ActionRec.src act)
          = lookupFile c2state (ActionRec.src act) :=
  @C2_organize_then_undo_roundtrip "/t" "" "20250101T000000Z" c2state
    [{ src := ["a.txt"], dst := ["txt", "a.txt"] },
     { src := ["b.TXT"], dst := ["txt", "b.TXT"] },
     { src := ["c"], dst := ["no_ext", "c"] }]
    c2org
    (by decide) (by decide) (by decide) (by decide) (by decide)

theorem performMoves_nil (oracle : Nat → Bool) (s : FS) (i : Nat) :
    performMoves oracle s [] i = s := rfl

theorem restoreLoop_nil (oracle : Nat → Bool) (s : FS) (i : Nat) :
    restoreLoop oracle s [] i = s := rfl

/-- Claim C9: two completed non-dry-run passes given the same one-second
UTC timestamp write the same history path `history_<ts>.json`; the second
pass's write overwrites the first, so the path afterwards holds exactly the
second pass's actions, and whenever the two plans differ the first pass's
action list is no longer stored there (unrecoverable by undo). -/
theorem C9_same_second_history_overwritten {oracle : Nat → Bool}
    {folder pfx ts : String} {s : FS} {A₁ A₂ : List ActionRec}
    {sOrg1 sOrg2 : FS}
    (h1 : scan_and_organize oracle folder s false pfx ts = .ok (A₁, sOrg1))
    (h2 : scan_and_organize oracle folder sOrg1 false pfx ts
      = .ok (A₂, sOrg2)) :
    lookupFile sOrg1 [LOGS_DIR, historyName ts] = some (Content.json A₁)
    ∧ lookupFile sOrg2 [LOGS_DIR, historyName ts] = some (Content.json A₂)
    ∧ (A₁ ≠ A₂ →
        lookupFile sOrg2 [LOGS_DIR, historyName ts]
          ≠ some (Content.json A₁)) := by
  obtain ⟨t1, _, hs1, _⟩ := scan_wet_spec h1
  obtain ⟨t2, _, hs2, _⟩ := scan_wet_spec h2
  subst hs1
  subst hs2
  refine ⟨lookupFile_writeFile_self _ _ _, lookupFile_writeFile_self _ _ _,
    ?_⟩
  intro hne hcontra
  rw [lookupFile_writeFile_self] at hcontra
  injection hcontra with h'
  injection h' with h''
  exact hne h''.symm

/-- Witness instantiating C9: a pass on `c2state`, then a second pass in the
same second; the history path holds `[]` afterwards, and the first pass's
three recorded actions are gone. -/
theorem C9_witness :
    lookupFile c2org [LOGS_DIR, historyName "20250101T000000Z"]
      = some (Content.json
          [{ src := ["a.txt"], dst := ["txt", "a.txt"] },
           { src := ["b.TXT"], dst := ["txt", "b.TXT"] },
           { src := ["c"], dst := ["no_ext", "c"] }])
    ∧ lookupFile
        (FS.mk [(["txt", "a.txt"], Content.blob),
                (["txt", "b.TXT"], Content.blob),
                (["no_ext", "c"], Content.blob),
                ([LOGS_DIR, "history_20250101T000000Z.json"],
                 Content.json [])]
               [[LOGS_DIR], ["txt"], ["no_ext"]])
        [LOGS_DIR, historyName "20250101T000000Z"]
        = some (Content.json [])
    ∧ (([({ src := ["a.txt"], dst := ["txt", "a.txt"] } : ActionRec),
         { src := ["b.TXT"], dst := ["txt", "b.TXT"] },
         { src := ["c"], dst := ["no_ext", "c"] }] : List ActionRec)
          ≠ [] →
        lookupFile
          (FS.mk [(["txt", "a.txt"], Content.blob),
                  (["txt", "b.TXT"], Content.blob),
                  (["no_ext", "c"], Content.blob),
                  ([LOGS_DIR, "history_20250101T000000Z.json"],
                   Content.json [])]
                 [[LOGS_DIR], ["txt"], ["no_ext"]])
          [LOGS_DIR, historyName "20250101T000000Z"]
          ≠ some (Content.json
              [{ src := ["a.txt"], dst := ["txt", "a.txt"] },
               { src := ["b.TXT"], dst := ["txt", "b.TXT"] },
               { src := ["c"], dst := ["no_ext", "c"] }])) :=
  @C9_same_second_history_overwritten ozero "/t" "" "20250101T000000Z"
    c2state
    [{ src := ["a.txt"], dst := ["txt", "a.txt"] },
     { src := ["b.TXT"], dst := ["txt", "b.TXT"] },
     { src := ["c"], dst := ["no_ext", "c"] }]
    []
    c2org
    (FS.mk [(["txt", "a.txt"], Content.blob),
            (["txt", "b.TXT"], Content.blob),
            (["no_ext", "c"], Content.blob),
            ([LOGS_DIR, "history_20250101T000000Z.json"],
             Content.json [])]
           [[LOGS_DIR], ["txt"], ["no_ext"]])
    (by decide) (by decide)

/-- Claim C10: a completed non-dry-run organize pass on a directory with no
top-level regular files still writes a history file whose action list is
empty; with a fresh timestamp that file is the selected (lexicographically
greatest) active history, and the next undo consumes it — returning the
empty action list and merely renaming the file to its undone form, mutating
nothing else. -/
theorem C10_empty_pass_still_writes_history {oracle : Nat → Bool}
    {folder pfx ts : String} {s : FS} {A : List ActionRec} {sOrg : FS}
    (h_scan : scan_and_organize oracle folder s false pfx ts = .ok (A, sOrg))
    (h_empty : ∀ fname ∈ listdir s [], isfile s [fname] = false)
    (h_fresh : ∀ f ∈ listdir s [LOGS_DIR],
        pyStartswith f "history_" = true →
          pyStrLt f (historyName ts) = true) :
    A = []
    ∧ lookupFile sOrg [LOGS_DIR, historyName ts] = some (Content.json [])
    ∧ selectHistory sOrg = some (historyName ts)
    ∧ undo_last ozero sOrg
        = (.ok [], renameFile sOrg [LOGS_DIR, historyName ts]
            [LOGS_DIR, undoneName (historyName ts)]) := by
  obtain ⟨s1, hp, hsOrg, hdirlogs⟩ := scan_wet_spec h_scan
  obtain ⟨hA, hfiles1, _, hdirsch, _⟩ := planLoop_spec folder _ s [] hp
  rw [List.nil_append] at hA
  have hA0 : A = [] := by
    rw [hA]
    unfold planActions
    rw [List.filterMap_eq_nil_iff]
    intro fname hmem
    have hcf : ¬ planCond folder s fname = true := by
      intro hc
      have h1 := (planCond_iff.mp hc).1
      rw [h_empty fname hmem] at h1
      cases h1
    rw [if_neg hcf]
  subst hA0
  rw [performMoves_nil] at hsOrg hdirlogs
  subst hsOrg
  set sOrg := writeFile s1 [LOGS_DIR, historyName ts] (Content.json [])
    with hsOrg
  have hlook_h : lookupFile sOrg [LOGS_DIR, historyName ts]
      = some (Content.json []) := lookupFile_writeFile_self _ _ _
  have hdirsOrg : sOrg.dirs = s1.dirs := by
    rw [hsOrg, dirs_writeFile]
  have hlogsOrg : isdir sOrg [LOGS_DIR] = true := by
    rw [isdir_eq_of_dirs hdirsOrg]
    exact hdirlogs
  have hsel : selectHistory sOrg = some (historyName ts) := by
    unfold selectHistory
    apply pySorted_getLast?_of_max
    · refine List.mem_filter.mpr ⟨?_, historyName_startswith ts⟩
      refine mem_listdir.mpr (Or.inl ⟨Content.json [], ?_⟩)
      exact lookupFile_entry hlook_h
    · intro y hy
      obtain ⟨hy1, hy2⟩ := List.mem_filter.mp hy
      rcases mem_listdir.mp hy1 with ⟨cy, hcy⟩ | hdy
      · by_cases hyh : y = historyName ts
        · rw [hyh]
          exact pyLe_refl _
        · rw [hsOrg] at hcy
          rcases entry_writeFile.mp hcy with ⟨_, hmem2⟩ | ⟨heq, _⟩
          · rw [hfiles1] at hmem2
            have hyls : y ∈ listdir s [LOGS_DIR] :=
              mem_listdir.mpr (Or.inl ⟨cy, hmem2⟩)
            exact pyLe_of_strLt (h_fresh y hyls hy2)
          · refine absurd heq ?_
            intro hh
            simp only [List.cons_append, List.nil_append,
              List.cons.injEq, and_true] at hh
            exact hyh hh.2
      · rw [hdirsOrg] at hdy
        rcases hdirsch _ hdy with hds | ⟨fname, hfnl, hfnc, _⟩
        · have hyls : y ∈ listdir s [LOGS_DIR] :=
            mem_listdir.mpr (Or.inr hds)
          exact pyLe_of_strLt (h_fresh y hyls hy2)
        · have h1 := (planCond_iff.mp hfnc).1
          rw [h_empty fname hfnl] at h1
          cases h1
  have hread : readJson sOrg [LOGS_DIR, historyName ts] = .ok [] := by
    unfold readJson
    rw [hlook_h]
  have hu := @undo_last_eq ozero _ _ _ hlogsOrg hsel hread
  rw [restoreLoop_nil] at hu
  exact ⟨rfl, hlook_h, hsel, hu⟩

/-- A directory with no top-level regular files at all. -/
def c10state : FS := { files := [], dirs := [[LOGS_DIR]] }

/-- Witness instantiating C10 on `c10state`. -/
theorem C10_witness :
    ([] : List ActionRec) = []
    ∧ lookupFile
        (FS.mk [([LOGS_DIR, "history_20250101T000000Z.json"],
                 Content.json [])] [[LOGS_DIR]])
        [LOGS_DIR, historyName "20250101T000000Z"]
        = some (Content.json [])
    ∧ selectHistory
        (FS.mk [([LOGS_DIR, "history_20250101T000000Z.json"],
                 Content.json [])] [[LOGS_DIR]])
        = some (historyName "20250101T000000Z")
    ∧ undo_last ozero
        (FS.mk [([LOGS_DIR, "history_20250101T000000Z.json"],
                 Content.json [])] [[LOGS_DIR]])
        = (.ok [], renameFile
            (FS.mk [([LOGS_DIR, "history_20250101T000000Z.json"],
                     Content.json [])] [[LOGS_DIR]])
            [LOGS_DIR, historyName "20250101T000000Z"]
            [LOGS_DIR, undoneName (historyName "20250101T000000Z")]) :=
  @C10_empty_pass_still_writes_history ozero "/t" "" "20250101T000000Z"
    c10state []
    (FS.mk [([LOGS_DIR, "history_20250101T000000Z.json"],
             Content.json [])] [[LOGS_DIR]])
    (by decide) (by decide) (by decide)

theorem readJson_ok {s : FS} {p : FPath} {acts : List ActionRec}
    (h : readJson s p = .ok acts) :
    lookupFile s p = some (Content.json acts) := by
  unfold readJson at h
  cases hl : lookupFile s p with
  | none => rw [hl] at h; cases h
  | some c =>
    cases c with
    | blob => rw [hl] at h; cases h
    | json a =>
      rw [hl] at h
      injection h with h'
      rw [h']

theorem lookupFile_shutilMove_other {t t' : FS} {src dst p : FPath}
    (h : shutilMove t src dst = .ok t')
    (h1 : p ≠ src) (h2 : p ≠ dst) (h3 : p ≠ dst ++ [basename src]) :
    lookupFile t' p = lookupFile t p := by
  unfold shutilMove at h
  by_cases hd : isdir t dst = true
  · rw [if_pos hd] at h
    by_cases he : pathExists t (dst ++ [basename src]) = true
    · rw [if_pos he] at h; cases h
    · rw [if_neg he] at h
      cases hl : lookupFile t src with
      | some c =>
        rw [hl] at h
        injection h with h'
        rw [← h', lookupFile_writeFile_ne _ _ h3,
          lookupFile_removeFile_ne _ h1]
      | none => rw [hl] at h; cases h
  · rw [if_neg hd] at h
    by_cases hpd : isdir t dst.dropLast = true
    · rw [if_pos hpd] at h
      cases hl : lookupFile t src with
      | some c =>
        rw [hl] at h
        injection h with h'
        rw [← h', lookupFile_writeFile_ne _ _ h2,
          lookupFile_removeFile_ne _ h1]
      | none => rw [hl] at h; cases h
    · rw [if_neg hpd] at h; cases h

theorem lookupFile_restoreStepO_other (oracle : Nat → Bool) (i : Nat)
    {t : FS} {act : ActionRec} {p : FPath}
    (h1 : p ≠ act.src) (h2 : p ≠ act.dst)
    (h3 : p ≠ act.src ++ [basename act.dst]) :
    lookupFile (restoreStepO oracle i t act) p = lookupFile t p := by
  unfold restoreStepO
  by_cases he : pathExists t act.dst = true
  · rw [if_pos he]
    cases hm : makedirs t act.src.dropLast with
    | error e => rfl
    | ok t1 =>
      have hfl : lookupFile t1 p = lookupFile t p :=
        lookupFile_eq_of_files (files_makedirs hm) p
      show lookupFile (if oracle i = true then t1
        else match shutilMove t1 act.dst act.src with
          | .ok s2 => s2
          | .error _ => t1) p = lookupFile t p
      by_cases ho : oracle i = true
      · rw [if_pos ho]
        exact hfl
      · rw [if_neg ho]
        cases hs : shutilMove t1 act.dst act.src with
        | error e => exact hfl
        | ok t2 =>
          rw [lookupFile_shutilMove_other hs h2 h1 h3]
          exact hfl
  · rw [if_neg he]

theorem restoreLoop_frame (oracle : Nat → Bool) :
    ∀ (acts : List ActionRec) (s : FS) (i : Nat) (p : FPath),
      (∀ act ∈ acts, p ≠ act.src ∧ p ≠ act.dst
        ∧ p ≠ act.src ++ [basename act.dst]) →
      lookupFile (restoreLoop oracle s acts i) p = lookupFile s p
  | [], s, i, p, _ => rfl
  | act :: rest, s, i, p, h => by
    show lookupFile (restoreLoop oracle (restoreStepO oracle i s act)
      rest (i + 1)) p = lookupFile s p
    rw [restoreLoop_frame oracle rest _ (i + 1) p
      (fun a ha => h a (List.mem_cons_of_mem _ ha))]
    have h0 := h act (List.mem_cons_self _ _)
    exact lookupFile_restoreStepO_other oracle i h0.1 h0.2.1 h0.2.2

/-- Claim C5: when the active history selected by undo contains an action
whose destination no longer exists at the moment it is reached, undo skips
that action with no mutation (the loop over the whole list equals the loop
over the prefix composed with the loop over the suffix), still processes
every remaining action and completes normally, and still renames the
consumed history file to its undone form (the undone file holds the same
action list and the original history name is gone). -/
theorem C5_missing_destination_skipped {oracle : Nat → Bool} {s : FS}
    {last : String} {acts : List ActionRec} {j : Nat}
    (hdir : isdir s [LOGS_DIR] = true)
    (hsel : selectHistory s = some last)
    (hread : readJson s [LOGS_DIR, last] = .ok acts)
    (hj : j < acts.length)
    (hmiss : pathExists (restoreLoop oracle s (acts.take j) 0)
        ((acts.get ⟨j, hj⟩).dst) = false)
    (hframe : ∀ act ∈ acts, ([LOGS_DIR, last] : FPath) ≠ act.src
        ∧ ([LOGS_DIR, last] : FPath) ≠ act.dst
        ∧ ([LOGS_DIR, last] : FPath) ≠ act.src ++ [basename act.dst]) :
    (undo_last oracle s).1 = UndoOutcome.ok acts
    ∧ restoreLoop oracle s acts 0
        = restoreLoop oracle (restoreLoop oracle s (acts.take j) 0)
            (acts.drop (j + 1)) (j + 1)
    ∧ lookupFile (undo_last oracle s).2 [LOGS_DIR, undoneName last]
        = some (Content.json acts)
    ∧ isfile (undo_last oracle s).2 [LOGS_DIR, last] = false := by
  have hu := @undo_last_eq oracle _ _ _ hdir hsel hread
  have hlen : (acts.take j).length = j := by
    rw [List.length_take]
    omega
  have hsplit : restoreLoop oracle s acts 0
      = restoreLoop oracle (restoreLoop oracle s (acts.take j) 0)
          (acts.drop (j + 1)) (j + 1) := by
    conv =>
      lhs
      rw [← List.take_append_drop j acts]
    rw [restoreLoop_append]
    rw [hlen]
    have hdj : acts.drop j = acts.get ⟨j, hj⟩ :: acts.drop (j + 1) :=
      (List.get_cons_drop acts ⟨j, hj⟩).symm
    rw [hdj]
    show restoreLoop oracle
      (restoreStepO oracle (0 + j) (restoreLoop oracle s (acts.take j) 0)
        (acts.get ⟨j, hj⟩)) (acts.drop (j + 1)) (0 + j + 1) = _
    rw [Nat.zero_add]
    rw [restoreStepO_skip oracle j hmiss]
  have hlooklast : lookupFile (restoreLoop oracle s acts 0)
      [LOGS_DIR, last] = some (Content.json acts) := by
    rw [restoreLoop_frame oracle acts s 0 _ hframe]
    exact readJson_ok hread
  have hne : last ≠ undoneName last := by
    have h1 := (selectHistory_spec hsel).1
    exact startswith_history_ne_undone h1 (undoneName_startswith h1)
  have hpne : ([LOGS_DIR, last] : FPath)
      ≠ [LOGS_DIR, undoneName last] := by
    intro hh
    simp only [List.cons.injEq, and_true] at hh
    exact hne hh.2
  refine ⟨by rw [hu], hsplit, ?_, ?_⟩
  · rw [hu]
    show lookupFile (renameFile (restoreLoop oracle s acts 0)
      [LOGS_DIR, last] [LOGS_DIR, undoneName last])
      [LOGS_DIR, undoneName last] = some (Content.json acts)
    unfold renameFile
    rw [hlooklast]
    exact lookupFile_writeFile_self _ _ _
  · rw [hu]
    show isfile (renameFile (restoreLoop oracle s acts 0)
      [LOGS_DIR, last] [LOGS_DIR, undoneName last])
      [LOGS_DIR, last] = false
    unfold renameFile
    rw [hlooklast]
    unfold isfile
    rw [lookupFile_writeFile_ne _ _ hpne, lookupFile_removeFile_self]
    rfl

/-- An active history whose first recorded destination was externally
deleted; the second destination is still present. -/
def c5state : FS :=
  { files := [([LOGS_DIR, "history_20250101T000000Z.json"],
               Content.json
                 [{ src := ["a.txt"], dst := ["txt", "a.txt"] },
                  { src := ["b.txt"], dst := ["txt", "b.txt"] }]),
              (["txt", "b.txt"], Content.blob)],
    dirs := [[LOGS_DIR], ["txt"]] }

/-- Witness instantiating C5 on `c5state` with the first action's
destination missing. -/
theorem C5_witness :
    (undo_last ozero c5state).1 = UndoOutcome.ok
      [{ src := ["a.txt"], dst := ["txt", "a.txt"] },
       { src := ["b.txt"], dst := ["txt", "b.txt"] }]
    ∧ restoreLoop ozero c5state
        [{ src := ["a.txt"], dst := ["txt", "a.txt"] },
         { src := ["b.txt"], dst := ["txt", "b.txt"] }] 0
        = restoreLoop ozero
            (restoreLoop ozero c5state
              (List.take 0
                [({ src := ["a.txt"], dst := ["txt", "a.txt"] } : ActionRec),
                 { src := ["b.txt"], dst := ["txt", "b.txt"] }]) 0)
            (List.drop 1
              [({ src := ["a.txt"], dst := ["txt", "a.txt"] } : ActionRec),
               { src := ["b.txt"], dst := ["txt", "b.txt"] }]) 1
    ∧ lookupFile (undo_last ozero c5state).2
        [LOGS_DIR, undoneName "history_20250101T000000Z.json"]
        = some (Content.json
            [{ src := ["a.txt"], dst := ["txt", "a.txt"] },
             { src := ["b.txt"], dst := ["txt", "b.txt"] }])
    ∧ isfile (undo_last ozero c5state).2
        [LOGS_DIR, "history_20250101T000000Z.json"] = false :=
  @C5_missing_destination_skipped ozero c5state
    "history_20250101T000000Z.json"
    [{ src := ["a.txt"], dst := ["txt", "a.txt"] },
     { src := ["b.txt"], dst := ["txt", "b.txt"] }]
    0
    (by decide) (by decide) (by decide) (by decide) (by decide) (by decide)
